import Mathlib

/-!
Verification of the PCB_GBR CAM pipeline.

This file gives a shallow embedding, in Lean 4, of the parts of the
PCB_GBR sources that the specification talks about, and proves (or
refutes) the specified properties against that embedding.

Modelling conventions:
* Python floats are modelled as exact rationals (`ℚ`); the explicit
  float-slack constants of the source (such as the `1e-9` used in drill
  matching) are kept as the exact rationals they denote.
* Planar geometry (shapely) is modelled symbolically where only the
  bookkeeping matters, and pointwise (membership of a rational point)
  where boolean composition matters: `unary_union` of a list of shapes
  is pointwise disjunction and `difference` is pointwise `and-not`.
* Python `while` loops over rational counters are written as
  fuel-indexed structural recursions; the fuel supplied at each call
  site is sufficient for the loop to run to completion, so the
  embedding computes the same iteration sequence as the source loop.
* Python `round` (banker's rounding, used by the spatial hash of
  `dedupe_holes_by_xy`) is modelled exactly as round-half-to-even.
-/

/-! ### drilling.py: `_assign_holes_to_drills`

Holes are `(x, y, diameter)` triples; drill bits are represented by
their diameters (the source carries full bit dicts but reads only
`b["diameter"]` in this function; bit identity is positional).
-/

/-- The float slack `1e-9` that `_assign_holes_to_drills` and
`best_drill_index_for` add to the match limit. -/
def matchEps : ℚ := 1 / 1000000000

/-- The scan `for i, d in enumerate(ds): if d <= limit + 1e-9: pick = i
else: break` of `_assign_holes_to_drills`, with the running index made
explicit. `acc` is the last feasible index seen so far (`pick`). -/
def pickAux (limit : ℚ) : List ℚ → ℕ → Option ℕ → Option ℕ
  | [], _, acc => acc
  | d :: rest, n, acc =>
    if d ≤ limit + matchEps then pickAux limit rest (n + 1) (some n) else acc

/-- Index of the largest drill `≤ limit + 1e-9` in the ascending list `ds`
(`None` when even the smallest drill is too large). -/
def pickIdx (ds : List ℚ) (limit : ℚ) : Option ℕ :=
  pickAux limit ds 0 none

/-- The assignment loop of `_assign_holes_to_drills`: each hole is appended
to the bucket of its picked drill; `none` models the
`return None, "Impossible: ..."` branch. `acc` has one bucket per sorted
drill. -/
def assignGo (ds : List ℚ) (tol : ℚ) :
    List (ℚ × ℚ × ℚ) → List (List (ℚ × ℚ)) → Option (List (List (ℚ × ℚ)))
  | [], acc => some acc
  | (x, y, hd) :: rest, acc =>
    match pickIdx ds (hd + tol) with
    | none => none
    | some i => assignGo ds tol rest (acc.set i (acc.getD i [] ++ [(x, y)]))

/-- `_assign_holes_to_drills` (drilling.py): filter the bits with positive
diameter, sort ascending, assign each hole to the largest drill whose
diameter is `≤ hole + tol + 1e-9`, and return the used (bit, holes) pairs
sorted by diameter descending. `none` models both error returns
(`"No drill bits provided."` and `"Impossible: no drill <= ..."`). -/
def assign_holes_to_drills (holes : List (ℚ × ℚ × ℚ)) (drill_bits : List ℚ)
    (tol : ℚ) : Option (List (ℚ × List (ℚ × ℚ))) :=
  let drills := List.insertionSort (· ≤ ·) (drill_bits.filter (fun d => 0 < d))
  if drills.isEmpty then none
  else
    match assignGo drills tol holes (drills.map fun _ => []) with
    | none => none
    | some acc =>
      some (List.insertionSort (fun p q : ℚ × List (ℚ × ℚ) => q.1 ≤ p.1)
        ((drills.zip acc).filter (fun p => !p.2.isEmpty)))

/-! Characterisation of the pick scan via `takeWhile`. -/

theorem pickAux_eq_takeWhile (limit : ℚ) (ds : List ℚ) :
    ∀ (n : ℕ) (acc : Option ℕ),
      pickAux limit ds n acc =
        match (ds.takeWhile (fun d => d ≤ limit + matchEps)).length with
        | 0 => acc
        | m + 1 => some (n + m) := by
  induction ds with
  | nil => intro n acc; rfl
  | cons d rest ih =>
    intro n acc
    by_cases h : d ≤ limit + matchEps
    · rw [pickAux, if_pos h, ih (n + 1) (some n),
        List.takeWhile_cons_of_pos (by simpa using h)]
      cases htw : (rest.takeWhile (fun d => decide (d ≤ limit + matchEps))).length with
      | zero => simp [htw]
      | succ m => simp [htw]; omega
    · rw [pickAux, if_neg h, List.takeWhile_cons_of_neg (by simpa using h)]
      rfl

theorem pickIdx_eq_takeWhile (ds : List ℚ) (limit : ℚ) :
    pickIdx ds limit =
      match (ds.takeWhile (fun d => d ≤ limit + matchEps)).length with
      | 0 => none
      | m + 1 => some m := by
  rw [pickIdx, pickAux_eq_takeWhile]
  cases (ds.takeWhile (fun d => d ≤ limit + matchEps)).length <;> simp


theorem takeWhile_stop {α : Type _} (p : α → Bool) :
    ∀ (l : List α) (x : α), l[(l.takeWhile p).length]? = some x → p x = false := by
  intro l
  induction l with
  | nil => intro x hx; simp at hx
  | cons a t ih =>
    intro x hx
    by_cases hpa : p a = true
    · rw [List.takeWhile_cons_of_pos hpa] at hx
      exact ih x (by simpa using hx)
    · rw [List.takeWhile_cons_of_neg hpa] at hx
      simp only [List.length_nil, List.getElem?_cons_zero, Option.some.injEq] at hx
      subst hx
      simpa using hpa

theorem takeWhile_get_sat {α : Type _} (p : α → Bool) (l : List α) (i : ℕ)
    (hi : i < (l.takeWhile p).length) (hl : i < l.length) :
    p (l.get ⟨i, hl⟩) = true := by
  have hpre := List.takeWhile_prefix (l := l) p
  have := List.mem_takeWhile_imp (l := l) (p := p) (x := (l.takeWhile p).get ⟨i, hi⟩)
    (List.get_mem _ _ _)
  rwa [show (l.takeWhile p).get ⟨i, hi⟩ = l.get ⟨i, hl⟩ from hpre.getElem hi] at this

theorem pickIdx_none_iff (ds : List ℚ) (limit : ℚ)
    (hs : ds.Sorted (· ≤ ·)) :
    pickIdx ds limit = none ↔ ∀ d ∈ ds, limit + matchEps < d := by
  rw [pickIdx_eq_takeWhile]
  cases htw : (ds.takeWhile (fun d => decide (d ≤ limit + matchEps))).length with
  | zero =>
    have hnil : ds.takeWhile (fun d => decide (d ≤ limit + matchEps)) = [] :=
      List.eq_nil_of_length_eq_zero htw
    constructor
    · intro _ d hd
      rcases List.mem_iff_get.mp hd with ⟨⟨j, hj⟩, rfl⟩
      have h0lt : 0 < ds.length := Nat.lt_of_le_of_lt (Nat.zero_le _) hj
      have h0 := List.takeWhile_eq_nil_iff.mp hnil h0lt
      have h0' : limit + matchEps < ds.get ⟨0, h0lt⟩ := by
        by_contra hc
        exact h0 (by simpa using le_of_not_lt hc)
      exact lt_of_lt_of_le h0'
        (hs.rel_get_of_le (a := ⟨0, h0lt⟩) (b := ⟨j, hj⟩) (Fin.mk_le_mk.mpr (Nat.zero_le _)))
    · intro _; rfl
  | succ m =>
    have hlen : m < ds.length := by
      have := (List.takeWhile_prefix (l := ds) (fun d => decide (d ≤ limit + matchEps))).length_le
      omega
    have hsat : ds.get ⟨m, hlen⟩ ≤ limit + matchEps :=
      of_decide_eq_true (takeWhile_get_sat _ ds m (by rw [htw]; omega) hlen)
    constructor
    · intro h; exact absurd h (by simp)
    · intro hall
      exact absurd hsat (not_le.mpr (hall _ (List.get_mem _ _ _)))

theorem pickIdx_some_spec (ds : List ℚ) (limit : ℚ) (i : ℕ)
    (hs : ds.Sorted (· ≤ ·)) (hp : pickIdx ds limit = some i) :
    ∃ h : i < ds.length, ds.get ⟨i, h⟩ ≤ limit + matchEps ∧
      ∀ d ∈ ds, d ≤ limit + matchEps → d ≤ ds.get ⟨i, h⟩ := by
  rw [pickIdx_eq_takeWhile] at hp
  cases htw : (ds.takeWhile (fun d => decide (d ≤ limit + matchEps))).length with
  | zero => rw [htw] at hp; exact absurd hp (by simp)
  | succ m =>
    rw [htw] at hp
    obtain rfl : m = i := by simpa using hp
    have hlen : m < ds.length := by
      have := (List.takeWhile_prefix (l := ds) (fun d => decide (d ≤ limit + matchEps))).length_le
      omega
    refine ⟨hlen, ?_, ?_⟩
    · exact of_decide_eq_true (takeWhile_get_sat _ ds m (by rw [htw]; omega) hlen)
    · intro d hd hdle
      rcases List.mem_iff_get.mp hd with ⟨⟨j, hj⟩, rfl⟩
      by_cases hji : j ≤ m
      · exact hs.rel_get_of_le (a := ⟨j, hj⟩) (b := ⟨m, hlen⟩) (Fin.mk_le_mk.mpr hji)
      · exfalso
        have hLlt : m + 1 < ds.length := by omega
        have hstop := takeWhile_stop (fun d => decide (d ≤ limit + matchEps)) ds
          (ds.get ⟨m + 1, hLlt⟩) (by rw [htw]; exact List.getElem?_eq_getElem hLlt)
        have hgt : limit + matchEps < ds.get ⟨m + 1, hLlt⟩ := by
          by_contra hc
          have hstop' : decide (ds.get ⟨m + 1, hLlt⟩ ≤ limit + matchEps) = false := by
            simpa using hstop
          rw [decide_eq_true (le_of_not_lt hc)] at hstop'
          simp at hstop'
        have hmono : ds.get ⟨m + 1, hLlt⟩ ≤ ds.get ⟨j, hj⟩ :=
          hs.rel_get_of_le (a := ⟨m + 1, hLlt⟩) (b := ⟨j, hj⟩) (Fin.mk_le_mk.mpr (by omega))
        exact absurd (le_trans hmono hdle) (not_le.mpr hgt)

theorem assignGo_none_iff (ds : List ℚ) (tol : ℚ) :
    ∀ (holes : List (ℚ × ℚ × ℚ)) (acc : List (List (ℚ × ℚ))),
      assignGo ds tol holes acc = none ↔
        ∃ h ∈ holes, pickIdx ds (h.2.2 + tol) = none := by
  intro holes
  induction holes with
  | nil => intro acc; simp [assignGo]
  | cons h rest ih =>
    intro acc
    obtain ⟨x, y, hd⟩ := h
    rw [assignGo]
    cases hp : pickIdx ds (hd + tol) with
    | none =>
      simp only [true_iff]
      exact ⟨(x, y, hd), List.mem_cons_self _ _, hp⟩
    | some i =>
      rw [ih]
      constructor
      · rintro ⟨h', hmem, hnone⟩
        exact ⟨h', List.mem_cons_of_mem _ hmem, hnone⟩
      · rintro ⟨h', hmem, hnone⟩
        rcases List.mem_cons.mp hmem with rfl | hmem'
        · exact absurd hnone (by simp [hp])
        · exact ⟨h', hmem', hnone⟩

theorem assignGo_some_mem (ds : List ℚ) (tol : ℚ) :
    ∀ (holes : List (ℚ × ℚ × ℚ)) (acc acc' : List (List (ℚ × ℚ))),
      assignGo ds tol holes acc = some acc' →
      ∀ (i : ℕ) (pt : ℚ × ℚ), pt ∈ acc'.getD i [] →
        pt ∈ acc.getD i [] ∨
          ∃ hd, (pt.1, pt.2, hd) ∈ holes ∧ pickIdx ds (hd + tol) = some i := by
  intro holes
  induction holes with
  | nil =>
    intro acc acc' hgo i pt hpt
    rw [assignGo] at hgo
    cases hgo
    exact Or.inl hpt
  | cons h rest ih =>
    intro acc acc' hgo i pt hpt
    obtain ⟨x, y, hd⟩ := h
    rw [assignGo] at hgo
    cases hp : pickIdx ds (hd + tol) with
    | none => rw [hp] at hgo; exact absurd hgo (by simp)
    | some j =>
      rw [hp] at hgo
      rcases ih _ _ hgo i pt hpt with hin | ⟨hd', hmem, hpick⟩
      · rw [List.getD_eq_getElem?_getD, List.getElem?_set] at hin
        by_cases hji : j = i
        · subst hji
          by_cases hjl : j < acc.length
          · rw [if_pos rfl, if_pos hjl] at hin
            simp only [Option.getD_some] at hin
            rcases List.mem_append.mp hin with hold | hnew
            · exact Or.inl hold
            · simp only [List.mem_singleton] at hnew
              subst hnew
              exact Or.inr ⟨hd, List.mem_cons_self _ _, hp⟩
          · rw [if_pos rfl, if_neg hjl] at hin
            simp at hin
        · rw [if_neg hji] at hin
          exact Or.inl (by rwa [List.getD_eq_getElem?_getD])
      · exact Or.inr ⟨hd', List.mem_cons_of_mem _ hmem, hpick⟩

theorem mapNil_getD (drills : List ℚ) (k : ℕ) :
    (drills.map fun _ => ([] : List (ℚ × ℚ))).getD k [] = [] := by
  rw [List.getD_eq_getElem?_getD, List.getElem?_map]
  cases drills[k]? <;> rfl

theorem assign_none_characterisation (holes : List (ℚ × ℚ × ℚ)) (bits : List ℚ)
    (tol : ℚ) :
    assign_holes_to_drills holes bits tol = none ↔
      bits.filter (fun d => 0 < d) = [] ∨
        ∃ h ∈ holes, ∀ d ∈ bits, 0 < d → h.2.2 + tol + matchEps < d := by
  unfold assign_holes_to_drills
  set drills := List.insertionSort (· ≤ ·) (bits.filter (fun d => decide (0 < d))) with hdr
  have hsorted : drills.Sorted (· ≤ ·) := List.sorted_insertionSort _ _
  have hmem : ∀ d : ℚ, d ∈ drills ↔ d ∈ bits ∧ 0 < d := by
    intro d
    rw [hdr, List.mem_insertionSort, List.mem_filter]
    simp
  have hfilter_nil : drills = [] ↔ bits.filter (fun d => decide (0 < d)) = [] := by
    constructor
    · intro h
      have hperm := List.perm_insertionSort (α := ℚ) (· ≤ ·) (bits.filter (fun d => decide (0 < d)))
      rw [hdr] at h
      have : (bits.filter (fun d => decide (0 < d))).length = 0 := by
        rw [← hperm.length_eq, h]
        rfl
      exact List.eq_nil_of_length_eq_zero this
    · intro h
      rw [hdr, h]
      rfl
  by_cases hemp : drills.isEmpty
  · rw [if_pos hemp]
    have hnil : bits.filter (fun d => decide (0 < d)) = [] :=
      hfilter_nil.mp (List.isEmpty_iff.mp hemp)
    simp [hnil]
  · rw [if_neg hemp]
    cases hgo : assignGo drills tol holes (drills.map fun _ => []) with
    | none =>
      simp only [true_iff]
      right
      rcases (assignGo_none_iff drills tol holes _).mp hgo with ⟨h, hh, hnone⟩
      refine ⟨h, hh, ?_⟩
      intro d hd hdpos
      exact (pickIdx_none_iff drills _ hsorted).mp hnone d ((hmem d).mpr ⟨hd, hdpos⟩)
    | some acc =>
      simp only [reduceCtorEq, false_iff, not_or]
      constructor
      · intro hnil
        exact hemp (by rw [List.isEmpty_iff, hfilter_nil]; exact hnil)
      · rintro ⟨h, hh, hbig⟩
        have hpick : pickIdx drills (h.2.2 + tol) = none := by
          rw [pickIdx_none_iff drills _ hsorted]
          intro d hd
          rcases (hmem d).mp hd with ⟨hdb, hdpos⟩
          exact hbig d hdb hdpos
        have : assignGo drills tol holes (drills.map fun _ => []) = none :=
          (assignGo_none_iff drills tol holes _).mpr ⟨h, hh, hpick⟩
        rw [this] at hgo
        exact absurd hgo (by simp)

theorem assign_some_largest (holes : List (ℚ × ℚ × ℚ)) (bits : List ℚ) (tol : ℚ)
    (plan : List (ℚ × List (ℚ × ℚ))) (hres : assign_holes_to_drills holes bits tol = some plan) :
    ∀ p ∈ plan, ∀ pt ∈ p.2, ∃ hd, (pt.1, pt.2, hd) ∈ holes ∧
      p.1 ∈ bits ∧ 0 < p.1 ∧ p.1 ≤ hd + tol + matchEps ∧
      ∀ d ∈ bits, 0 < d → d ≤ hd + tol + matchEps → d ≤ p.1 := by
  intro p hp pt hpt
  unfold assign_holes_to_drills at hres
  set drills := List.insertionSort (· ≤ ·) (bits.filter (fun d => decide (0 < d))) with hdr
  have hsorted : drills.Sorted (· ≤ ·) := List.sorted_insertionSort _ _
  have hmem : ∀ d : ℚ, d ∈ drills ↔ d ∈ bits ∧ 0 < d := by
    intro d
    rw [hdr, List.mem_insertionSort, List.mem_filter]
    simp
  by_cases hemp : drills.isEmpty
  · rw [if_pos hemp] at hres
    exact absurd hres (by simp)
  · rw [if_neg hemp] at hres
    cases hgo : assignGo drills tol holes (drills.map fun _ => []) with
    | none => rw [hgo] at hres; exact absurd hres (by simp)
    | some acc =>
      rw [hgo] at hres
      have hplan : plan = List.insertionSort (fun p q : ℚ × List (ℚ × ℚ) => q.1 ≤ p.1)
          ((drills.zip acc).filter (fun p => !p.2.isEmpty)) := by
        have := hres
        simpa using this.symm
      have hzip : p ∈ drills.zip acc := by
        have h1 : p ∈ (drills.zip acc).filter (fun p => !p.2.isEmpty) := by
          rw [hplan, List.mem_insertionSort] at hp
          exact hp
        exact (List.mem_filter.mp h1).1
      rcases List.mem_iff_get.mp hzip with ⟨⟨k, hk⟩, hget⟩
      have hkd : k < drills.length := by
        rw [List.length_zip] at hk
        omega
      have hka : k < acc.length := by
        rw [List.length_zip] at hk
        omega
      have hpk : p = (drills[k], acc[k]) := by
        rw [← hget, List.get_eq_getElem, List.getElem_zip]
      have hp1 : drills.get ⟨k, hkd⟩ = p.1 := by
        rw [hpk, List.get_eq_getElem]
      have hp2 : acc.get ⟨k, hka⟩ = p.2 := by
        rw [hpk, List.get_eq_getElem]
      have hptacc : pt ∈ acc.getD k [] := by
        rw [List.getD_eq_getElem?_getD, List.getElem?_eq_getElem hka]
        rw [hpk] at hpt
        exact hpt
      rcases assignGo_some_mem drills tol holes _ acc hgo k pt hptacc with hinit | ⟨hd, hmemh, hpick⟩
      · rw [mapNil_getD] at hinit
        exact absurd hinit (List.not_mem_nil pt)
      · rcases pickIdx_some_spec drills _ k hsorted hpick with ⟨hklen, hfeas, hmax⟩
        have hgeteq : drills.get ⟨k, hklen⟩ = p.1 := hp1
        refine ⟨hd, hmemh, ?_, ?_, ?_, ?_⟩
        · exact ((hmem p.1).mp (hgeteq ▸ List.get_mem drills k hklen)).1
        · exact ((hmem p.1).mp (hgeteq ▸ List.get_mem drills k hklen)).2
        · rw [← hgeteq]; exact hfeas
        · intro d hd' hdpos hdle
          rw [← hgeteq]
          exact hmax d ((hmem d).mpr ⟨hd', hdpos⟩) hdle

theorem pickIdx_lt_length (ds : List ℚ) (limit : ℚ) (i : ℕ)
    (hp : pickIdx ds limit = some i) : i < ds.length := by
  rw [pickIdx_eq_takeWhile] at hp
  cases htw : (ds.takeWhile (fun d => decide (d ≤ limit + matchEps))).length with
  | zero => rw [htw] at hp; cases hp
  | succ m =>
    rw [htw] at hp
    obtain rfl : m = i := by simpa using hp
    have := (List.takeWhile_prefix (l := ds)
      (fun d => decide (d ≤ limit + matchEps))).length_le
    omega

theorem assignGo_mono (ds : List ℚ) (tol : ℚ) :
    ∀ (holes : List (ℚ × ℚ × ℚ)) (acc acc' : List (List (ℚ × ℚ))),
      assignGo ds tol holes acc = some acc' →
      ∀ (i : ℕ) (pt : ℚ × ℚ), pt ∈ acc.getD i [] → pt ∈ acc'.getD i [] := by
  intro holes
  induction holes with
  | nil =>
    intro acc acc' hgo i pt hpt
    rw [assignGo] at hgo
    cases hgo
    exact hpt
  | cons h rest ih =>
    intro acc acc' hgo i pt hpt
    obtain ⟨x, y, hd⟩ := h
    rw [assignGo] at hgo
    cases hp : pickIdx ds (hd + tol) with
    | none => rw [hp] at hgo; exact absurd hgo (by simp)
    | some j =>
      rw [hp] at hgo
      refine ih _ _ hgo i pt ?_
      rw [List.getD_eq_getElem?_getD, List.getElem?_set]
      by_cases hji : j = i
      · subst hji
        by_cases hjl : j < acc.length
        · rw [if_pos rfl, if_pos hjl]
          simp only [Option.getD_some]
          exact List.mem_append.mpr (Or.inl hpt)
        · exfalso
          rw [List.getD_eq_getElem?_getD, List.getElem?_eq_none (by omega)] at hpt
          simp at hpt
      · rw [if_neg hji]
        rwa [List.getD_eq_getElem?_getD] at hpt

theorem assignGo_length (ds : List ℚ) (tol : ℚ) :
    ∀ (holes : List (ℚ × ℚ × ℚ)) (acc acc' : List (List (ℚ × ℚ))),
      assignGo ds tol holes acc = some acc' → acc'.length = acc.length := by
  intro holes
  induction holes with
  | nil =>
    intro acc acc' hgo
    rw [assignGo] at hgo
    cases hgo
    rfl
  | cons h rest ih =>
    intro acc acc' hgo
    obtain ⟨x, y, hd⟩ := h
    rw [assignGo] at hgo
    cases hp : pickIdx ds (hd + tol) with
    | none => rw [hp] at hgo; exact absurd hgo (by simp)
    | some j =>
      rw [hp] at hgo
      rw [ih _ _ hgo, List.length_set]

theorem assignGo_forward (ds : List ℚ) (tol : ℚ) :
    ∀ (holes : List (ℚ × ℚ × ℚ)) (acc acc' : List (List (ℚ × ℚ))),
      ds.length ≤ acc.length →
      assignGo ds tol holes acc = some acc' →
      ∀ h ∈ holes, ∃ i, pickIdx ds (h.2.2 + tol) = some i ∧
        (h.1, h.2.1) ∈ acc'.getD i [] := by
  intro holes
  induction holes with
  | nil =>
    intro acc acc' _ _ h hmem
    cases hmem
  | cons hh rest ih =>
    intro acc acc' hacc hgo h hmem
    obtain ⟨x, y, hd⟩ := hh
    rw [assignGo] at hgo
    cases hp : pickIdx ds (hd + tol) with
    | none => rw [hp] at hgo; exact absurd hgo (by simp)
    | some j =>
      rw [hp] at hgo
      rcases List.mem_cons.mp hmem with rfl | hmem'
      · refine ⟨j, hp, ?_⟩
        have hjl : j < acc.length :=
          lt_of_lt_of_le (pickIdx_lt_length ds _ j hp) hacc
        refine assignGo_mono ds tol rest _ acc' hgo j (x, y) ?_
        rw [List.getD_eq_getElem?_getD, List.getElem?_set, if_pos rfl,
          if_pos hjl]
        simp only [Option.getD_some]
        exact List.mem_append.mpr (Or.inr (List.mem_singleton.mpr rfl))
      · exact ih _ _ (by rw [List.length_set]; exact hacc) hgo h hmem'

theorem assign_some_complete (holes : List (ℚ × ℚ × ℚ)) (bits : List ℚ)
    (tol : ℚ) (plan : List (ℚ × List (ℚ × ℚ)))
    (hres : assign_holes_to_drills holes bits tol = some plan) :
    ∀ h ∈ holes, ∃ p ∈ plan, (h.1, h.2.1) ∈ p.2 ∧ p.1 ∈ bits ∧ 0 < p.1 ∧
      p.1 ≤ h.2.2 + tol + matchEps ∧
      ∀ d ∈ bits, 0 < d → d ≤ h.2.2 + tol + matchEps → d ≤ p.1 := by
  intro h hmemh
  unfold assign_holes_to_drills at hres
  set drills := List.insertionSort (· ≤ ·) (bits.filter (fun d => decide (0 < d))) with hdr
  have hsorted : drills.Sorted (· ≤ ·) := List.sorted_insertionSort _ _
  have hmem : ∀ d : ℚ, d ∈ drills ↔ d ∈ bits ∧ 0 < d := by
    intro d
    rw [hdr, List.mem_insertionSort, List.mem_filter]
    simp
  by_cases hemp : drills.isEmpty
  · rw [if_pos hemp] at hres
    exact absurd hres (by simp)
  · rw [if_neg hemp] at hres
    cases hgo : assignGo drills tol holes (drills.map fun _ => []) with
    | none => rw [hgo] at hres; exact absurd hres (by simp)
    | some acc =>
      rw [hgo] at hres
      have hplan : plan = List.insertionSort (fun p q : ℚ × List (ℚ × ℚ) => q.1 ≤ p.1)
          ((drills.zip acc).filter (fun p => !p.2.isEmpty)) := by
        have := hres
        simpa using this.symm
      rcases assignGo_forward drills tol holes _ acc
        (by rw [List.length_map]) hgo h hmemh with ⟨i, hpick, hbucket⟩
      have hilen : i < drills.length := pickIdx_lt_length drills _ i hpick
      have hacl : acc.length = drills.length := by
        rw [assignGo_length drills tol holes _ acc hgo, List.length_map]
      have hia : i < acc.length := by omega
      have hbucket' : (h.1, h.2.1) ∈ acc[i] := by
        rwa [List.getD_eq_getElem?_getD, List.getElem?_eq_getElem hia,
          Option.getD_some] at hbucket
      have hzl : i < (drills.zip acc).length := by
        rw [List.length_zip]
        omega
      have hzip : (drills[i], acc[i]) ∈ drills.zip acc := by
        have := List.getElem_mem hzl
        rwa [List.getElem_zip] at this
      have hne2 : acc[i] ≠ [] := List.ne_nil_of_mem hbucket'
      have hfil : (drills[i], acc[i]) ∈
          (drills.zip acc).filter (fun p => !p.2.isEmpty) := by
        refine List.mem_filter.mpr ⟨hzip, ?_⟩
        simp [List.isEmpty_iff, hne2]
      refine ⟨(drills[i], acc[i]), ?_, hbucket', ?_, ?_, ?_, ?_⟩
      · rw [hplan, List.mem_insertionSort]
        exact hfil
      · exact ((hmem drills[i]).mp (List.getElem_mem hilen)).1
      · exact ((hmem drills[i]).mp (List.getElem_mem hilen)).2
      · rcases pickIdx_some_spec drills _ i hsorted hpick with ⟨hklen, hfeas, _⟩
        simpa using hfeas
      · rcases pickIdx_some_spec drills _ i hsorted hpick with ⟨hklen, _, hmax⟩
        intro d hd' hdpos hdle
        have := hmax d ((hmem d).mpr ⟨hd', hdpos⟩) hdle
        simpa using this

/-- C1 (corrected): the planner assigns each hole the largest positive
candidate drill whose diameter is at most `hole + tol + 1e-9` (the code's
explicit float slack) — every input hole appears in some returned plan
entry whose drill is largest-feasible for it, and every planned point
comes from an input hole for which its drill is largest-feasible — and it
reports impossibility exactly when no positive-diameter candidate exists
at all, or some hole has no positive candidate with diameter at most
`hole + tol + 1e-9`. -/
theorem C1_drill_assignment (holes : List (ℚ × ℚ × ℚ)) (bits : List ℚ) (tol : ℚ) :
    (assign_holes_to_drills holes bits tol = none ↔
      bits.filter (fun d => 0 < d) = [] ∨
        ∃ h ∈ holes, ∀ d ∈ bits, 0 < d → h.2.2 + tol + matchEps < d) ∧
    (∀ plan, assign_holes_to_drills holes bits tol = some plan →
      (∀ h ∈ holes, ∃ p ∈ plan, (h.1, h.2.1) ∈ p.2 ∧ p.1 ∈ bits ∧ 0 < p.1 ∧
        p.1 ≤ h.2.2 + tol + matchEps ∧
        ∀ d ∈ bits, 0 < d → d ≤ h.2.2 + tol + matchEps → d ≤ p.1) ∧
      (∀ p ∈ plan, ∀ pt ∈ p.2, ∃ hd, (pt.1, pt.2, hd) ∈ holes ∧
        p.1 ∈ bits ∧ 0 < p.1 ∧ p.1 ≤ hd + tol + matchEps ∧
        ∀ d ∈ bits, 0 < d → d ≤ hd + tol + matchEps → d ≤ p.1)) :=
  ⟨assign_none_characterisation holes bits tol,
    fun plan hres => ⟨assign_some_complete holes bits tol plan hres,
      assign_some_largest holes bits tol plan hres⟩⟩

/-- C1 counterexample: with one hole of diameter 1, tolerance 0, and one
candidate drill of diameter `1 + 5·10⁻¹⁰`, the planner succeeds and assigns
that drill to the hole even though its diameter exceeds `hole + tol = 1`;
the claim as stated requires impossibility here. -/
theorem C1_drill_assignment_counterexample :
    assign_holes_to_drills [(0, 0, 1)] [1 + 1 / 2000000000] 0 =
        some [(1 + 1 / 2000000000, [(0, 0)])] ∧
      ¬ ((1 + 1 / 2000000000 : ℚ) ≤ 1 + 0) := by
  constructor
  · norm_num [assign_holes_to_drills, assignGo, pickIdx, pickAux,
      List.insertionSort, List.orderedInsert, matchEps]
  · norm_num

/-- Witness for C1: the amended theorem's per-hole completeness applied at
a concrete planned input — the single hole of diameter 1 is planned on the
drill of diameter 1. -/
theorem C1_drill_assignment_witness :
    ∃ p ∈ [((1 : ℚ), [((0 : ℚ), (0 : ℚ))])], ((0 : ℚ), (0 : ℚ)) ∈ p.2 ∧
      p.1 ∈ [(1 : ℚ)] ∧ 0 < p.1 ∧ p.1 ≤ 1 + 0 + matchEps ∧
      ∀ d ∈ [(1 : ℚ)], 0 < d → d ≤ 1 + 0 + matchEps → d ≤ p.1 :=
  ((C1_drill_assignment [((0 : ℚ), (0 : ℚ), (1 : ℚ))] [(1 : ℚ)] 0).2
    [(1, [(0, 0)])]
    (by norm_num [assign_holes_to_drills, assignGo, pickIdx, pickAux,
      List.insertionSort, List.orderedInsert, matchEps])).1
    (0, 0, 1) (by simp)

/-! ### excellon_parser.py: `dedupe_holes_by_xy`

Holes are `(x, y, d)` triples of exact rationals.  Python's `round`
(round-half-to-even) is modelled by `bround`; the spatial hash `grid`
(a dict from integer cells to lists of indices into `out`) is modelled
as a function `(ℤ × ℤ) → List ℕ`.
-/

/-- Python `round(q)`: round half to even. -/
def bround (q : ℚ) : ℤ :=
  let f := ⌊q⌋
  let r := q - (f : ℚ)
  if r < 1 / 2 then f
  else if 1 / 2 < r then f + 1
  else if f % 2 = 0 then f else f + 1

/-- Python `round(q, 6)`: round half to even at six decimals. -/
def round6 (q : ℚ) : ℚ :=
  (bround (q * 1000000) : ℚ) / 1000000

/-- In-place dict update `best[key] = v` (existing key keeps its position,
as in a Python dict). -/
def bestUpd (key : ℚ × ℚ) (v : ℚ × ℚ × ℚ) :
    List ((ℚ × ℚ) × (ℚ × ℚ × ℚ)) → List ((ℚ × ℚ) × (ℚ × ℚ × ℚ))
  | [] => [(key, v)]
  | (k, w) :: rest =>
    if k = key then (k, v) :: rest else (k, w) :: bestUpd key v rest

/-- The `tol_xy <= 0` branch of `dedupe_holes_by_xy`: exact-key dict keyed
by the coordinates rounded to six decimals, keeping the largest diameter
(and, when larger, its center). -/
def dedupeZeroGo : List (ℚ × ℚ × ℚ) → List ((ℚ × ℚ) × (ℚ × ℚ × ℚ)) →
    List ((ℚ × ℚ) × (ℚ × ℚ × ℚ))
  | [], best => best
  | (x, y, d) :: rest, best =>
    let key := (round6 x, round6 y)
    match best.find? (fun kv => kv.1 = key) with
    | none => dedupeZeroGo rest (best ++ [(key, (x, y, d))])
    | some kv =>
      if d > kv.2.2.2 then dedupeZeroGo rest (bestUpd key (x, y, d) best)
      else dedupeZeroGo rest best

/-- The nine neighbour-cell offsets, in the `for dx: for dy:` order of the
source. -/
def nbrOffs : List (ℤ × ℤ) :=
  [(-1, -1), (-1, 0), (-1, 1), (0, -1), (0, 0), (0, 1), (1, -1), (1, 0), (1, 1)]

/-- `for idx in lst: if (x-x2)²+(y-y2)² <= r2: found = idx; break`. -/
def findInBucket (out : List (ℚ × ℚ × ℚ)) (x y r2 : ℚ) (lst : List ℕ) :
    Option ℕ :=
  lst.find? (fun idx =>
    let t := out.getD idx (0, 0, 0)
    decide ((x - t.1) ^ 2 + (y - t.2.1) ^ 2 ≤ r2))

/-- The 3×3 neighbour-bucket search of `dedupe_holes_by_xy`. -/
def findNeighbor (grid : (ℤ × ℤ) → List ℕ) (out : List (ℚ × ℚ × ℚ))
    (ix iy : ℤ) (x y r2 : ℚ) : Option ℕ :=
  nbrOffs.findSome? (fun o => findInBucket out x y r2 (grid (ix + o.1, iy + o.2)))

/-- The main loop of `dedupe_holes_by_xy` (the `tol_xy > 0` branch):
append unseen holes, and when a hole lands within `tol` of a kept record,
keep the record but — when the new hole's diameter is larger — replace
both its diameter and its center with the new hole's values. -/
def dedupeGo (tol r2 : ℚ) :
    List (ℚ × ℚ × ℚ) → List (ℚ × ℚ × ℚ) → ((ℤ × ℤ) → List ℕ) →
      List (ℚ × ℚ × ℚ)
  | [], out, _ => out
  | (x, y, d) :: rest, out, grid =>
    let ix := bround (x * (1 / tol))
    let iy := bround (y * (1 / tol))
    match findNeighbor grid out ix iy x y r2 with
    | none =>
      dedupeGo tol r2 rest (out ++ [(x, y, d)])
        (fun p => if p = (ix, iy) then grid p ++ [out.length] else grid p)
    | some found =>
      let t := out.getD found (0, 0, 0)
      if d > t.2.2 then dedupeGo tol r2 rest (out.set found (x, y, d)) grid
      else dedupeGo tol r2 rest out grid

/-- `dedupe_holes_by_xy` (excellon_parser.py). -/
def dedupe_holes_by_xy (holes : List (ℚ × ℚ × ℚ)) (tol_xy : ℚ) :
    List (ℚ × ℚ × ℚ) :=
  if holes.isEmpty then []
  else if tol_xy ≤ 0 then (dedupeZeroGo holes []).map (fun kv => kv.2)
  else dedupeGo tol_xy (tol_xy * tol_xy) holes [] (fun _ => [])

theorem dedupeGo_length (tol r2 : ℚ) :
    ∀ (holes out : List (ℚ × ℚ × ℚ)) (grid : (ℤ × ℤ) → List ℕ),
      (dedupeGo tol r2 holes out grid).length ≤ out.length + holes.length := by
  intro holes
  induction holes with
  | nil => intro out grid; simp [dedupeGo]
  | cons h rest ih =>
    intro out grid
    obtain ⟨x, y, d⟩ := h
    rw [dedupeGo]
    cases hf : findNeighbor grid out (bround (x * (1 / tol))) (bround (y * (1 / tol))) x y r2 with
    | none =>
      dsimp only
      refine le_trans (ih _ _) ?_
      rw [List.length_append]
      simp
      omega
    | some found =>
      dsimp only
      by_cases hd : d > (out.getD found (0, 0, 0)).2.2
      · rw [if_pos hd]
        refine le_trans (ih _ _) ?_
        rw [List.length_set]
        simp
      · rw [if_neg hd]
        refine le_trans (ih _ _) ?_
        simp

theorem dedupeGo_subset (tol r2 : ℚ) :
    ∀ (holes out : List (ℚ × ℚ × ℚ)) (grid : (ℤ × ℤ) → List ℕ),
      ∀ h ∈ dedupeGo tol r2 holes out grid, h ∈ out ∨ h ∈ holes := by
  intro holes
  induction holes with
  | nil => intro out grid h hh; exact Or.inl (by simpa [dedupeGo] using hh)
  | cons hd0 rest ih =>
    intro out grid h hh
    obtain ⟨x, y, d⟩ := hd0
    rw [dedupeGo] at hh
    split at hh
    · rcases ih _ _ h hh with hout | hrest
      · rcases List.mem_append.mp hout with h1 | h2
        · exact Or.inl h1
        · exact Or.inr (by simp [List.mem_singleton.mp h2])
      · exact Or.inr (List.mem_cons_of_mem _ hrest)
    · dsimp only at hh
      split at hh
      · rcases ih _ _ h hh with hout | hrest
        · rcases List.mem_or_eq_of_mem_set hout with h1 | h2
          · exact Or.inl h1
          · exact Or.inr (by simp [h2])
        · exact Or.inr (List.mem_cons_of_mem _ hrest)
      · rcases ih _ _ h hh with hout | hrest
        · exact Or.inl hout
        · exact Or.inr (List.mem_cons_of_mem _ hrest)

/-- C2 (amended): for a positive tolerance the output of
`dedupe_holes_by_xy` has cardinality at most the input's.  The pairwise
`distance > tol` half of the claim is false (see the counterexample):
a merge with a larger-diameter hole relocates a surviving record's
center, which can leave two output holes within `tol` of one another. -/
theorem C2_dedupe_cardinality (holes : List (ℚ × ℚ × ℚ)) (tol : ℚ)
    (ht : 0 < tol) :
    (dedupe_holes_by_xy holes tol).length ≤ holes.length := by
  unfold dedupe_holes_by_xy
  by_cases he : holes.isEmpty
  · rw [if_pos he]
    simp
  · rw [if_neg he, if_neg (not_le.mpr ht)]
    simpa using dedupeGo_length tol (tol * tol) holes [] (fun _ => [])

/-- Witness for C2: the amended theorem applied at a concrete input. -/
theorem C2_dedupe_cardinality_witness :
    (dedupe_holes_by_xy [((0 : ℚ), (0 : ℚ), (1 : ℚ))] 1).length ≤
      [((0 : ℚ), (0 : ℚ), (1 : ℚ))].length :=
  C2_dedupe_cardinality [((0 : ℚ), (0 : ℚ), (1 : ℚ))] 1 (by norm_num)

/-- C2 counterexample: with `tol = 1`, deduping
`[(0,0,1), (3/2,0,1), (4/5,0,2)]` yields the two records
`(4/5,0,2)` and `(3/2,0,1)`: the third input hole merged into the first
record and, having the larger diameter, moved that record's center to
`(4/5, 0)`, which is at Euclidean distance `7/10 ≤ tol` from the other
output hole — the claim demands pairwise distance strictly greater than
`tol`. -/
theorem C2_dedupe_counterexample :
    dedupe_holes_by_xy [(0, 0, 1), (3 / 2, 0, 1), (4 / 5, 0, 2)] 1 =
        [(4 / 5, 0, 2), (3 / 2, 0, 1)] ∧
      ((4 / 5 - 3 / 2 : ℚ) ^ 2 + (0 - 0 : ℚ) ^ 2 ≤ 1 ^ 2) ∧
      ((4 / 5, 0, 2) : ℚ × ℚ × ℚ) ≠ (3 / 2, 0, 1) := by
  refine ⟨?_, by norm_num, by norm_num⟩
  norm_num [dedupe_holes_by_xy, dedupeGo, findNeighbor, findInBucket, nbrOffs,
    bround, List.findSome?, List.find?]

/-- C8 (confirmed): every surviving record of `dedupe_holes_by_xy` is one
of the input records — center and diameter always travel together, taken
from the larger-diameter hole of each merge — and on the spec's example
`[(0,0,0.6), (0.02,0,1.0), (0.04,0,0.8)]` with `tol = 0.05` the output is
exactly one hole at `(0.02, 0)` with diameter `1.0`. -/
theorem C8_dedupe_keeps_largest :
    (∀ (holes : List (ℚ × ℚ × ℚ)) (tol : ℚ), 0 < tol →
      ∀ h ∈ dedupe_holes_by_xy holes tol, h ∈ holes) ∧
    dedupe_holes_by_xy [(0, 0, 3 / 5), (1 / 50, 0, 1), (1 / 25, 0, 4 / 5)]
        (1 / 20) = [(1 / 50, 0, 1)] := by
  constructor
  · intro holes tol ht h hh
    unfold dedupe_holes_by_xy at hh
    by_cases he : holes.isEmpty
    · rw [if_pos he] at hh
      simp at hh
    · rw [if_neg he, if_neg (not_le.mpr ht)] at hh
      rcases dedupeGo_subset tol (tol * tol) holes [] (fun _ => []) h hh with h1 | h2
      · simp at h1
      · exact h2
  · norm_num [dedupe_holes_by_xy, dedupeGo, findNeighbor, findInBucket, nbrOffs,
      bround, List.findSome?, List.find?]

/-- Witness for C8: the membership part applied at a concrete input. -/
theorem C8_dedupe_keeps_largest_witness :
    ((0 : ℚ), (0 : ℚ), (1 : ℚ)) ∈ [((0 : ℚ), (0 : ℚ), (1 : ℚ))] :=
  C8_dedupe_keeps_largest.1 [((0 : ℚ), (0 : ℚ), (1 : ℚ))] 1 (by norm_num)
    ((0 : ℚ), (0 : ℚ), (1 : ℚ))
    (by norm_num [dedupe_holes_by_xy, dedupeGo, findNeighbor, findInBucket,
      nbrOffs, bround, List.findSome?, List.find?])

/-! ### Fixed-point coordinate decoders
(`gerber_parser.py::_parse_rs274x_coord`, `excellon_parser.py::ExcellonFile._parse_fixed`)

Tokens are lists of characters (the source gets stripped strings).
`digitsVal` models Python `int(...)` on a digit string; `parseDecTok`
models `float(tok)` on a sign-and-decimal-point token. -/

/-- Python `int(s)` on a digit string (empty string gives 0, used only
behind the source's `ip == ""` guard). -/
def digitsVal (s : List Char) : ℕ :=
  s.foldl (fun a c => 10 * a + (c.toNat - 48)) 0

/-- Python `float(tok)` on a token that contains a decimal point:
optional leading `-`, integer digits, `.`, fraction digits. -/
def parseDecTok (tok : List Char) : ℚ :=
  let neg := tok.head? = some '-'
  let body := if neg then tok.tail else tok
  let ip := body.takeWhile (fun c => c ≠ '.')
  let fp := (body.dropWhile (fun c => c ≠ '.')).tail
  let v : ℚ := (digitsVal ip : ℚ) + (digitsVal fp : ℚ) / 10 ^ fp.length
  if neg then -v else v


/-- The shared digit-string core of `_parse_rs274x_coord` and
`_parse_fixed` (the two source functions are line-for-line identical
here): defensive total, right-truncation, zero-suppression padding, and
the split into integer and fractional digits. -/
def fixedCore (tokDigits : List Char) (int_d dec_d : ℕ) (zmL : Bool) : ℚ :=
  let total := if int_d + dec_d ≤ 0 then max 1 tokDigits.length else int_d + dec_d
  let td1 := if total < tokDigits.length then
      tokDigits.drop (tokDigits.length - total)
    else tokDigits
  let td := if td1.length < total then
      (if zmL then List.replicate (total - td1.length) '0' ++ td1
      else td1 ++ List.replicate (total - td1.length) '0')
    else td1
  if dec_d ≤ 0 then (digitsVal td : ℚ)
  else
    let ip0 := if 0 < int_d then td.take int_d else ['0']
    let fp := if 0 < int_d then td.drop int_d else td
    let ip := if ip0 = [] then ['0'] else ip0
    (digitsVal ip : ℚ) + (digitsVal fp : ℚ) / 10 ^ fp.length

/-- `_parse_rs274x_coord` (gerber_parser.py).  `zero_mode` is the FS zero
mode character; the source compares `zero_mode.upper() == "L"` and the FS
regex only produces `'L'` or `'T'`. -/
def parse_rs274x_coord (tok : List Char) (int_d dec_d : ℕ) (zero_mode : Char) : ℚ :=
  if tok = [] then 0
  else if tok.contains '.' then parseDecTok tok
  else
    let neg := tok.head? = some '-'
    let tokDigits := if neg then tok.tail else tok
    let val := fixedCore tokDigits int_d dec_d (decide (zero_mode = 'L'))
    if neg then -val else val

/-- `ExcellonFile._parse_fixed` (excellon_parser.py): same algorithm, with
the format `(int_d, dec_d)` and `leading = (zero_suppression == "leading")`. -/
def parse_fixed (fmt : ℕ × ℕ) (leading : Bool) (tok : List Char) : ℚ :=
  if tok = [] then 0
  else if tok.contains '.' then parseDecTok tok
  else
    let neg := tok.head? = some '-'
    let tokDigits := if neg then tok.tail else tok
    let val := fixedCore tokDigits fmt.1 fmt.2 leading
    if neg then -val else val

/-- The padding/truncation step exactly as the specification words it:
pad with '0' to `total` digits (left for L, right for T); when longer,
retain the rightmost `total` digits. -/
def specPad (ds : List Char) (total : ℕ) (zmL : Bool) : List Char :=
  if ds.length < total then
    (if zmL then List.replicate (total - ds.length) '0' ++ ds
    else ds ++ List.replicate (total - ds.length) '0')
  else ds.drop (ds.length - total)

/-- The decoded value as the specification words it: split the padded
digit string at `int_digits` and return
`sign * integer_part.fractional_part`. -/
def specFixedDecode (neg : Bool) (ds : List Char) (int_d dec_d : ℕ)
    (zmL : Bool) : ℚ :=
  let padded := specPad ds (int_d + dec_d) zmL
  (if neg then -1 else 1) *
    ((digitsVal (padded.take int_d) : ℚ) +
      (digitsVal (padded.drop int_d) : ℚ) / 10 ^ dec_d)

theorem digit_ne_dot {c : Char} (h : c.isDigit) : ¬ c = '.' := by
  intro he
  subst he
  exact absurd h (by decide)

theorem digit_ne_dash {c : Char} (h : c.isDigit) : ¬ c = '-' := by
  intro he
  subst he
  exact absurd h (by decide)

theorem tok_contains_dot_false (neg : Bool) (ds : List Char)
    (hdig : ∀ c ∈ ds, c.isDigit) :
    (((if neg then ['-'] else []) ++ ds).contains '.') = false := by
  rw [Bool.eq_false_iff]
  intro hc
  have hmem : '.' ∈ (if neg then ['-'] else []) ++ ds := by
    simpa using hc
  rcases List.mem_append.mp hmem with h1 | h2
  · cases neg <;> simp_all
  · exact digit_ne_dot (hdig _ h2) rfl

theorem valPart_eq (td : List Char) (int_d dec_d : ℕ)
    (hlen : td.length = int_d + dec_d) (hpos : 0 < int_d + dec_d) :
    (if dec_d ≤ 0 then (digitsVal td : ℚ)
    else
      let ip0 := if 0 < int_d then td.take int_d else ['0']
      let fp := if 0 < int_d then td.drop int_d else td
      let ip := if ip0 = [] then ['0'] else ip0
      (digitsVal ip : ℚ) + (digitsVal fp : ℚ) / 10 ^ fp.length) =
    (digitsVal (td.take int_d) : ℚ) + (digitsVal (td.drop int_d) : ℚ) / 10 ^ dec_d := by
  by_cases hd : dec_d ≤ 0
  · have hd0 : dec_d = 0 := by omega
    subst hd0
    rw [if_pos (le_refl 0), List.take_of_length_le (by omega),
      List.drop_eq_nil_of_le (by omega)]
    simp [digitsVal]
  · rw [if_neg hd]
    dsimp only
    by_cases hi : 0 < int_d
    · rw [if_pos hi, if_pos hi]
      have hip : td.take int_d ≠ [] := by
        intro h
        have := congrArg List.length h
        rw [List.length_take] at this
        simp only [List.length_nil] at this
        omega
      rw [if_neg hip]
      have hfplen : (td.drop int_d).length = dec_d := by
        rw [List.length_drop]
        omega
      rw [hfplen]
    · rw [if_neg hi, if_neg hi]
      have hi0 : int_d = 0 := by omega
      subst hi0
      rw [if_neg (by simp : ¬ (['0'] = ([] : List Char)))]
      have h0 : (digitsVal ['0'] : ℚ) = 0 := by
        have : digitsVal ['0'] = 0 := by decide
        rw [this]
        norm_num
      have hnil : (digitsVal ([] : List Char) : ℚ) = 0 := by norm_num [digitsVal]
      rw [List.take_zero, List.drop_zero, h0, hnil, hlen]
      norm_num

theorem fixedCore_eq_spec (ds : List Char) (int_d dec_d : ℕ) (zmB : Bool)
    (hpos : 0 < int_d + dec_d) :
    fixedCore ds int_d dec_d zmB =
      (digitsVal ((specPad ds (int_d + dec_d) zmB).take int_d) : ℚ) +
        (digitsVal ((specPad ds (int_d + dec_d) zmB).drop int_d) : ℚ) / 10 ^ dec_d := by
  unfold fixedCore specPad
  rw [if_neg (by omega : ¬ (int_d + dec_d ≤ 0))]
  dsimp only
  by_cases hlt : int_d + dec_d < ds.length
  · rw [if_pos hlt, if_neg (by omega : ¬ ds.length < int_d + dec_d)]
    have hlen1 : (ds.drop (ds.length - (int_d + dec_d))).length = int_d + dec_d := by
      rw [List.length_drop]
      omega
    rw [if_neg (by omega : ¬ (ds.drop (ds.length - (int_d + dec_d))).length < int_d + dec_d)]
    exact valPart_eq _ int_d dec_d hlen1 hpos
  · rw [if_neg hlt]
    by_cases hlt2 : ds.length < int_d + dec_d
    · rw [if_pos hlt2, if_pos hlt2]
      cases zmB with
      | true =>
        simp only [reduceIte]
        exact valPart_eq _ int_d dec_d
          (by rw [List.length_append, List.length_replicate]; omega) hpos
      | false =>
        simp only [Bool.false_eq_true, reduceIte]
        exact valPart_eq _ int_d dec_d
          (by rw [List.length_append, List.length_replicate]; omega) hpos
    · have hlen : ds.length = int_d + dec_d := by omega
      rw [if_neg (by omega : ¬ ds.length < int_d + dec_d),
        if_neg (by omega : ¬ ds.length < int_d + dec_d)]
      have hdrop : ds.drop (ds.length - (int_d + dec_d)) = ds := by
        rw [show ds.length - (int_d + dec_d) = 0 by omega, List.drop_zero]
      rw [hdrop]
      exact valPart_eq _ int_d dec_d hlen hpos

theorem rs274x_eq_spec (neg : Bool) (ds : List Char) (int_d dec_d : ℕ)
    (zm : Char) (hne : ds ≠ []) (hdig : ∀ c ∈ ds, c.isDigit)
    (hpos : 0 < int_d + dec_d) :
    parse_rs274x_coord ((if neg then ['-'] else []) ++ ds) int_d dec_d zm =
      specFixedDecode neg ds int_d dec_d (decide (zm = 'L')) := by
  have hne' : (if neg then ['-'] else []) ++ ds ≠ [] := by
    cases neg <;> simp [hne]
  have hcont := tok_contains_dot_false neg ds hdig
  rw [parse_rs274x_coord, if_neg hne', if_neg (by rw [hcont]; simp)]
  cases neg with
  | true =>
    simp only [if_pos trivial, List.singleton_append, List.head?_cons,
      List.tail_cons]
    rw [fixedCore_eq_spec ds int_d dec_d _ hpos]
    unfold specFixedDecode
    simp only [reduceIte]
    ring
  | false =>
    have hfalse : ¬ (ds.head? = some '-') := by
      cases ds with
      | nil => exact absurd rfl hne
      | cons c t =>
        simp only [List.head?_cons, Option.some.injEq]
        exact digit_ne_dash (hdig c (List.mem_cons_self _ _))
    simp only [List.nil_append, Bool.false_eq_true, if_false]
    rw [if_neg hfalse, if_neg hfalse]
    rw [fixedCore_eq_spec ds int_d dec_d _ hpos]
    unfold specFixedDecode
    simp only [Bool.false_eq_true, reduceIte]
    ring

theorem parse_fixed_eq_rs274x (fmt : ℕ × ℕ) (leading : Bool) (tok : List Char) :
    parse_fixed fmt leading tok =
      parse_rs274x_coord tok fmt.1 fmt.2 (if leading then 'L' else 'T') := by
  cases leading <;> rfl

theorem fixedCore_zero (ds : List Char) (zmB : Bool) (hne : ds ≠ []) :
    fixedCore ds 0 0 zmB = (digitsVal ds : ℚ) := by
  have hlen : 0 < ds.length := List.length_pos.mpr hne
  have hmax : max 1 ds.length = ds.length := by omega
  unfold fixedCore
  simp [hmax]

theorem rs274x_zero_fmt (neg : Bool) (ds : List Char) (zm : Char)
    (hne : ds ≠ []) (hdig : ∀ c ∈ ds, c.isDigit) :
    parse_rs274x_coord ((if neg then ['-'] else []) ++ ds) 0 0 zm =
      (if neg then -1 else 1) * (digitsVal ds : ℚ) := by
  have hne' : (if neg then ['-'] else []) ++ ds ≠ [] := by
    cases neg <;> simp [hne]
  have hcont := tok_contains_dot_false neg ds hdig
  rw [parse_rs274x_coord, if_neg hne', if_neg (by rw [hcont]; simp)]
  cases neg with
  | true =>
    simp only [if_pos trivial, List.singleton_append, List.head?_cons,
      List.tail_cons]
    rw [fixedCore_zero ds _ hne]
    ring
  | false =>
    have hfalse : ¬ (ds.head? = some '-') := by
      cases ds with
      | nil => exact absurd rfl hne
      | cons c t =>
        simp only [List.head?_cons, Option.some.injEq]
        exact digit_ne_dash (hdig c (List.mem_cons_self _ _))
    simp only [List.nil_append, Bool.false_eq_true, if_false]
    rw [if_neg hfalse, if_neg hfalse, fixedCore_zero ds _ hne]
    ring

/-- C4 (corrected): for every format with `int_digits + dec_digits > 0`,
both fixed-point decoders implement the specified algorithm — for a pure
digit token with an optional `-` sign: strip the sign, left-pad with '0'
to `int_digits + dec_digits` when the zero mode is `L` and right-pad when
it is `T`, keep only the rightmost `int_digits + dec_digits` digits when
the token is longer, split at `int_digits`, and return
`sign * integer_part.fractional_part`; a token containing `.` is parsed
directly as a decimal number.  For the degenerate format `(0, 0)` the
code's defensive `total = max(1, len(s))` branch instead returns the
whole token as `sign * int(token)`, not the spec formula's value. -/
theorem C4_fixed_point_decoding :
    (∀ (neg : Bool) (ds : List Char) (int_d dec_d : ℕ) (zm : Char),
      ds ≠ [] → (∀ c ∈ ds, c.isDigit) → 0 < int_d + dec_d →
      parse_rs274x_coord ((if neg then ['-'] else []) ++ ds) int_d dec_d zm =
        specFixedDecode neg ds int_d dec_d (decide (zm = 'L'))) ∧
    (∀ (neg : Bool) (ds : List Char) (fmt : ℕ × ℕ) (leading : Bool),
      ds ≠ [] → (∀ c ∈ ds, c.isDigit) → 0 < fmt.1 + fmt.2 →
      parse_fixed fmt leading ((if neg then ['-'] else []) ++ ds) =
        specFixedDecode neg ds fmt.1 fmt.2 leading) ∧
    (∀ (tok : List Char) (int_d dec_d : ℕ) (zm : Char), tok ≠ [] →
      tok.contains '.' = true →
      parse_rs274x_coord tok int_d dec_d zm = parseDecTok tok) ∧
    (∀ (neg : Bool) (ds : List Char) (zm : Char),
      ds ≠ [] → (∀ c ∈ ds, c.isDigit) →
      parse_rs274x_coord ((if neg then ['-'] else []) ++ ds) 0 0 zm =
        (if neg then -1 else 1) * (digitsVal ds : ℚ)) := by
  refine ⟨fun neg ds i d zm h1 h2 h3 => rs274x_eq_spec neg ds i d zm h1 h2 h3,
    ?_, ?_, fun neg ds zm h1 h2 => rs274x_zero_fmt neg ds zm h1 h2⟩
  · intro neg ds fmt leading h1 h2 h3
    rw [parse_fixed_eq_rs274x, rs274x_eq_spec neg ds fmt.1 fmt.2 _ h1 h2 h3]
    cases leading <;> rfl
  · intro tok i d zm h1 h2
    rw [parse_rs274x_coord, if_neg h1, if_pos h2]

/-- C4 counterexample: at the degenerate format `(0, 0)` (reachable via
`%FSLAX00Y00*%` or `FILE_FORMAT=0:0`) the decoder returns the whole token
as an integer — `int("15") = 15` — while the claimed retain-rightmost-
`int_digits + dec_digits`-digits formula keeps zero digits and yields 0,
so the decoders do not implement the claimed algorithm at every format. -/
theorem C4_fixed_point_decoding_counterexample :
    parse_rs274x_coord ['1', '5'] 0 0 'L' = 15 ∧
      specFixedDecode false ['1', '5'] 0 0 (decide ('L' = 'L')) = 0 ∧
      parse_rs274x_coord ['1', '5'] 0 0 'L' ≠
        specFixedDecode false ['1', '5'] 0 0 (decide ('L' = 'L')) := by
  have hdv : digitsVal ['1', '5'] = 15 := by decide
  refine ⟨?_, ?_, ?_⟩
  · have h := rs274x_zero_fmt false ['1', '5'] 'L' (by decide) (by decide)
    simp only [List.nil_append, Bool.false_eq_true, if_false] at h
    rw [h, hdv]
    norm_num
  · norm_num [specFixedDecode, specPad, digitsVal]
  · have h := rs274x_zero_fmt false ['1', '5'] 'L' (by decide) (by decide)
    simp only [List.nil_append, Bool.false_eq_true, if_false] at h
    rw [h, hdv]
    norm_num [specFixedDecode, specPad, digitsVal]

/-- Witness for C4: the decoder equation applied at the concrete token
`"15"` under format `X1.1`, zero mode `L`. -/
theorem C4_fixed_point_decoding_witness :
    parse_rs274x_coord ((if false then ['-'] else []) ++ ['1', '5']) 1 1 'L' =
      specFixedDecode false ['1', '5'] 1 1 (decide ('L' = 'L')) :=
  C4_fixed_point_decoding.1 false ['1', '5'] 1 1 'L' (by decide) (by decide)
    (by decide)

/-! ### gcode_writer.py: `toolchange_sequence`

G-code lines are modelled structurally; numeric rendering (`:.3f`) is
abstracted away, the carried values are the exact ones written.
`rpm = int(bit.get("rpm", 0))` is modelled by `rpm : Option ℤ` with
default `0` (bit dicts built by `bitlib.bit_dict` always carry an
integer rpm). -/

inductive GLine where
  | rapidZ (z : ℚ)
  | spindleOff
  | rapidXY (x y : ℚ)
  | comment (msg : String)
  | pause
  | spindleOnWithSpeed (rpm : ℤ)
  | spindleOn
  | dwell (seconds : ℚ)
deriving DecidableEq

/-- `toolchange_sequence` (gcode_writer.py): raise to toolchange Z, `M5`,
rapid to park, comment, `M0`, then `S<rpm> M3` when `rpm > 0` and a bare
`M3` otherwise, an optional `G4 P<warmup>` dwell, and a rapid to travel
Z. -/
def toolchange_sequence (tc_z travel_z px py warm : ℚ) (rpm : Option ℤ)
    (message : String) : List GLine :=
  [GLine.rapidZ tc_z, GLine.spindleOff, GLine.rapidXY px py,
    GLine.comment message, GLine.pause] ++
  (if 0 < rpm.getD 0 then [GLine.spindleOnWithSpeed (rpm.getD 0)]
    else [GLine.spindleOn]) ++
  (if 0 < warm then [GLine.dwell warm] else []) ++
  [GLine.rapidZ travel_z]

/-- C10 (confirmed): the spindle-on line is `S<rpm> M3` exactly when the
bit's rpm is present and positive, a bare `M3` exactly when the rpm is
zero, negative or missing, and in both cases the surrounding sequence is
emitted: the five fixed opening lines (toolchange-Z rapid, `M5`, park
rapid, comment, `M0`), the dwell exactly when the warmup is positive,
and the closing rapid to travel Z. -/
theorem C10_toolchange_spindle (tc_z travel_z px py warm : ℚ)
    (rpm : Option ℤ) (msg : String) :
    (∀ r : ℤ, GLine.spindleOnWithSpeed r ∈
        toolchange_sequence tc_z travel_z px py warm rpm msg ↔
      rpm.getD 0 = r ∧ 0 < r) ∧
    (GLine.spindleOn ∈ toolchange_sequence tc_z travel_z px py warm rpm msg ↔
      rpm.getD 0 ≤ 0) ∧
    ((toolchange_sequence tc_z travel_z px py warm rpm msg).take 5 =
      [GLine.rapidZ tc_z, GLine.spindleOff, GLine.rapidXY px py,
        GLine.comment msg, GLine.pause]) ∧
    ((toolchange_sequence tc_z travel_z px py warm rpm msg).getLast? =
      some (GLine.rapidZ travel_z)) ∧
    (GLine.dwell warm ∈ toolchange_sequence tc_z travel_z px py warm rpm msg ↔
      0 < warm) := by
  by_cases hr : 0 < rpm.getD 0 <;> by_cases hw : 0 < warm <;>
    refine ⟨?_, ?_, ?_, ?_, ?_⟩ <;>
    simp [toolchange_sequence, hr, hw, List.getLast?_append] <;>
    try omega

/-! ### gerber_parser.py: operation execution, polarity buckets, composition

The operation-code layer of `parse_gerber_full` (aperture table, `Dnn*`
selection, `LPD`/`LPC`, `D01`/`D02`/`D03`) is embedded over already-lexed
operations; G36/G37 region mode is not modelled (no claim touches it).
Geometry is symbolic (`Geom`); `memG` gives its pointwise denotation at a
rational point, with disks and stadiums as the ideal shapes that the
shapely buffers approximate, and rotated macro rectangles only at
rotation 0 (their trigonometric rotation is not rational; no claim
evaluates them). -/

inductive ApShape where
  | std (shape : Char) (a b : ℚ)
  | mac (name : String) (params : List ℚ)
deriving DecidableEq

inductive Geom where
  | circle (x y d : ℚ)
  | rectShape (x y w h : ℚ)
  | oblongShape (x y w h : ℚ)
  | macroRect (x y w h rot : ℚ)
  | lineBuf (x1 y1 x2 y2 w : ℚ)
deriving DecidableEq

/-- Squared distance from `(px, py)` to the segment from `(ax, ay)` to
`(bx, b_y)` (the clamped-projection formula, written with explicit
branches so that it evaluates by kernel reduction). -/
def segDist2 (ax ay bx b_y px py : ℚ) : ℚ :=
  let vx := bx - ax
  let vy := b_y - ay
  let l2 := vx * vx + vy * vy
  if l2 = 0 then (px - ax) * (px - ax) + (py - ay) * (py - ay)
  else
    let t0 := ((px - ax) * vx + (py - ay) * vy) / l2
    let t := if t0 < 0 then 0 else if 1 < t0 then 1 else t0
    (px - (ax + t * vx)) * (px - (ax + t * vx)) +
      (py - (ay + t * vy)) * (py - (ay + t * vy))

/-- `(px, py)` lies in the axis-aligned `w × h` rectangle centred at
`(x, y)`. -/
def inRect (x y w h px py : ℚ) : Bool :=
  decide (-(w / 2) ≤ px - x) && decide (px - x ≤ w / 2) &&
  decide (-(h / 2) ≤ py - y) && decide (py - y ≤ h / 2)

/-- Pointwise denotation of a symbolic geometry. -/
def memG (g : Geom) (p : ℚ × ℚ) : Bool :=
  match g with
  | .circle x y d =>
    decide ((p.1 - x) * (p.1 - x) + (p.2 - y) * (p.2 - y) ≤ (d / 2) * (d / 2))
  | .rectShape x y w h => inRect x y w h p.1 p.2
  | .oblongShape x y w h =>
    let r := (if w < h then w else h) / 2
    if h < w then
      decide (segDist2 (x - (w / 2 - r)) y (x + (w / 2 - r)) y p.1 p.2 ≤ r * r)
    else decide (segDist2 x (y - (h / 2 - r)) x (y + (h / 2 - r)) p.1 p.2 ≤ r * r)
  | .macroRect x y w h rot =>
    if rot = 0 then inRect x y w h p.1 p.2 else false
  | .lineBuf x1 y1 x2 y2 w =>
    decide (segDist2 x1 y1 x2 y2 p.1 p.2 ≤ (w / 2) * (w / 2))

/-- `is_empty` of the built shape (a zero- or negative-diameter buffer is
an empty shapely geometry and is not pushed to a polarity bucket). -/
def geomIsEmpty : Geom → Bool
  | .circle _ _ d => decide (d ≤ 0)
  | .oblongShape _ _ w h => decide ((if w < h then w else h) ≤ 0)
  | _ => false

/-- `pad_from_ap` (gerber_parser.py): the shape an aperture stamps at
`(x, y)`; `none` for a missing aperture, a non-C/R/O standard shape, or
a macro whose name is not a known `center_rect_21` macro.  `macros` is
the list of macro names parsed with the center-rectangle type. -/
def pad_from_ap (ap : Option ApShape) (x y : ℚ) (macros : List String) :
    Option Geom :=
  match ap with
  | none => none
  | some (ApShape.std shape a b) =>
    if shape = 'C' then some (Geom.circle x y a)
    else if shape = 'R' then some (Geom.rectShape x y a b)
    else if shape = 'O' then some (Geom.oblongShape x y a b)
    else none
  | some (ApShape.mac name params) =>
    if macros.contains name then
      let w := params.getD 0 0
      let h := if 1 < params.length then params.getD 1 0 else w
      let rot := params.getD 2 0
      some (Geom.macroRect x y w h rot)
    else none

/-- Already-lexed Gerber operation codes (the subset the claims need). -/
inductive GOp where
  | addAp (id : ℕ) (ap : ApShape)
  | selectAp (id : ℕ)
  | lpd
  | lpc
  | flash (x y : ℚ)
  | draw (x y : ℚ)
  | move (x y : ℚ)

structure GState where
  aps : List (ℕ × ApShape)
  cur : Option ℕ
  prev : Option (ℚ × ℚ)
  polarity : Bool
  flashes : List (ℕ × ℚ × ℚ)
  tracks : List (ℕ × (ℚ × ℚ) × (ℚ × ℚ))
  dark_geoms : List Geom
  clear_geoms : List Geom

/-- `aps[ap_id] = shape` (dict update: existing id keeps its position). -/
def apsUpd (i : ℕ) (ap : ApShape) : List (ℕ × ApShape) → List (ℕ × ApShape)
  | [] => [(i, ap)]
  | (j, a) :: rest =>
    if j = i then (j, ap) :: rest else (j, a) :: apsUpd i ap rest

/-- `aps.get(i)`. -/
def apsGet (i : ℕ) : List (ℕ × ApShape) → Option ApShape
  | [] => none
  | (j, a) :: rest => if j = i then some a else apsGet i rest

/-- One step of the operation loop of `parse_gerber_full`
(gerber_parser.py, lines 339–443, region mode aside). -/
def gerber_step (macros : List String) (st : GState) (op : GOp) : GState :=
  match op with
  | .addAp i ap => { st with aps := apsUpd i ap st.aps }
  | .selectAp i => { st with cur := some i }
  | .lpd => { st with polarity := true }
  | .lpc => { st with polarity := false }
  | .flash x y =>
    match st.cur with
    | none => st
    | some n =>
      let st1 := { st with flashes := st.flashes ++ [(n, x, y)], prev := some (x, y) }
      match pad_from_ap (apsGet n st.aps) x y macros with
      | none => st1
      | some g =>
        if geomIsEmpty g then st1
        else if st.polarity then { st1 with dark_geoms := st1.dark_geoms ++ [g] }
        else { st1 with clear_geoms := st1.clear_geoms ++ [g] }
  | .draw x y =>
    match st.prev, st.cur with
    | some p, some n =>
      let st1 := { st with tracks := st.tracks ++ [(n, p, (x, y))], prev := some (x, y) }
      match apsGet n st.aps with
      | some (ApShape.std shape a b) =>
        let width := if shape = 'C' then a else min a b
        if 0 < width then
          let g := Geom.lineBuf p.1 p.2 x y width
          if st.polarity then { st1 with dark_geoms := st1.dark_geoms ++ [g] }
          else { st1 with clear_geoms := st1.clear_geoms ++ [g] }
        else st1
      | _ => st1
    | _, _ => st
  | .move x y => { st with prev := some (x, y) }

/-- Executing a list of operations. -/
def gerber_run (macros : List String) (ops : List GOp) (st : GState) : GState :=
  ops.foldl (gerber_step macros) st

/-- Initial parser state (`polarity = "D"`). -/
def gerberInit : GState :=
  ⟨[], none, none, true, [], [], [], []⟩

/-- `_compose_dark_clear` (gerber_parser.py), pointwise: a point is in
`unary_union(dark).difference(unary_union(clear))` iff it is in some dark
shape and in no clear shape. -/
def compose_dark_clear_mem (dark clear : List Geom) (p : ℚ × ℚ) : Bool :=
  (dark.any fun g => memG g p) && !(clear.any fun g => memG g p)

/-- C9 (confirmed): a `D03` flash executed outside region mode while the
current aperture has no definition still appends to the parser's flash
list (the strict-mode-only warning aside), but contributes no geometry to
either polarity bucket. -/
theorem C9_flash_undefined_aperture (macros : List String) (st : GState)
    (x y : ℚ) (n : ℕ) (hcur : st.cur = some n)
    (hap : apsGet n st.aps = none) :
    (gerber_step macros st (GOp.flash x y)).flashes = st.flashes ++ [(n, x, y)] ∧
    (gerber_step macros st (GOp.flash x y)).dark_geoms = st.dark_geoms ∧
    (gerber_step macros st (GOp.flash x y)).clear_geoms = st.clear_geoms := by
  simp [gerber_step, hcur, hap, pad_from_ap]

/-- Witness for C9: a concrete state with selected but undefined
aperture `D10`. -/
theorem C9_flash_undefined_aperture_witness :
    (gerber_step [] ⟨[], some 10, none, true, [], [], [], []⟩
        (GOp.flash 1 2)).flashes = [] ++ [(10, 1, 2)] ∧
    (gerber_step [] ⟨[], some 10, none, true, [], [], [], []⟩
        (GOp.flash 1 2)).dark_geoms = [] ∧
    (gerber_step [] ⟨[], some 10, none, true, [], [], [], []⟩
        (GOp.flash 1 2)).clear_geoms = [] :=
  C9_flash_undefined_aperture [] ⟨[], some 10, none, true, [], [], [], []⟩
    1 2 10 rfl rfl

theorem step_clear_mono (macros : List String) (st : GState) (op : GOp) :
    ∀ g ∈ st.clear_geoms, g ∈ (gerber_step macros st op).clear_geoms := by
  intro g hg
  cases op with
  | addAp i ap => exact hg
  | selectAp i => exact hg
  | lpd => exact hg
  | lpc => exact hg
  | move x y => exact hg
  | flash x y =>
    rw [gerber_step]
    cases st.cur with
    | none => exact hg
    | some n =>
      dsimp only
      cases pad_from_ap (apsGet n st.aps) x y macros with
      | none => exact hg
      | some g' =>
        dsimp only
        by_cases he : geomIsEmpty g' = true
        · rw [if_pos he]; exact hg
        · rw [if_neg he]
          by_cases hp : st.polarity = true
          · rw [if_pos hp]; exact hg
          · rw [if_neg hp]; exact List.mem_append_left _ hg
  | draw x y =>
    rw [gerber_step]
    cases st.prev with
    | none => cases st.cur <;> exact hg
    | some p =>
      cases st.cur with
      | none => exact hg
      | some n =>
        dsimp only
        cases hap : apsGet n st.aps with
        | none => exact hg
        | some ap =>
          cases ap with
          | mac name params => exact hg
          | std shape a b =>
            dsimp only
            by_cases hw : 0 < (if shape = 'C' then a else min a b)
            · rw [if_pos hw]
              by_cases hp : st.polarity = true
              · rw [if_pos hp]; exact hg
              · rw [if_neg hp]; exact List.mem_append_left _ hg
            · rw [if_neg hw]; exact hg

theorem run_clear_mono (macros : List String) :
    ∀ (ops : List GOp) (st : GState),
      ∀ g ∈ st.clear_geoms, g ∈ (gerber_run macros ops st).clear_geoms := by
  intro ops
  induction ops with
  | nil => intro st g hg; exact hg
  | cons op rest ih =>
    intro st g hg
    rw [gerber_run, List.foldl_cons]
    exact ih _ g (step_clear_mono macros st op g hg)

/-- C3 (amended): at composition time the union of all clear (LPC) shapes
is subtracted from the union of all dark (LPD) shapes regardless of file
order; in particular once a clear shape covering a point has been
accumulated, no dark geometry added later can make that point copper. -/
theorem C3_clear_subtracts_later_dark (macros : List String)
    (ops more : List GOp) (g : Geom) (p : ℚ × ℚ)
    (hg : g ∈ (gerber_run macros ops gerberInit).clear_geoms)
    (hm : memG g p = true) :
    compose_dark_clear_mem
      (gerber_run macros (ops ++ more) gerberInit).dark_geoms
      (gerber_run macros (ops ++ more) gerberInit).clear_geoms p = false := by
  have hsplit : gerber_run macros (ops ++ more) gerberInit =
      gerber_run macros more (gerber_run macros ops gerberInit) := by
    rw [gerber_run, gerber_run, gerber_run, List.foldl_append]
  rw [hsplit]
  have hgm : g ∈ (gerber_run macros more (gerber_run macros ops gerberInit)).clear_geoms :=
    run_clear_mono macros more _ g hg
  rw [compose_dark_clear_mem]
  have hany : ((gerber_run macros more
      (gerber_run macros ops gerberInit)).clear_geoms.any fun g => memG g p) = true :=
    List.any_eq_true.mpr ⟨g, hgm, hm⟩
  rw [hany]
  simp


/-- A Gerber file prefix: a 2×2 dark square at the origin, then `LPC`
and a 6×2 clear rectangle covering it. -/
def polarityOpsPre : List GOp :=
  [GOp.addAp 10 (ApShape.std 'R' 2 2),
   GOp.addAp 11 (ApShape.std 'R' 6 2),
   GOp.selectAp 10,
   GOp.flash 0 0,
   GOp.lpc,
   GOp.selectAp 11,
   GOp.flash 0 0]

/-- Continuation of the file after the clear shape: back to `LPD` and a
2×2 dark square at `(2, 0)`, inside the earlier clear rectangle. -/
def polarityOpsPost : List GOp :=
  [GOp.lpd, GOp.selectAp 10, GOp.flash 2 0]

/-- C3 counterexample: in the file `polarityOpsPre ++ polarityOpsPost`
the dark square at `(2,0)` enters the dark bucket *after* the clear
rectangle entered the clear bucket, yet the composed copper at the point
`(2,0)` — inside that later dark square and outside the earlier dark
square — is empty: the clear shape subtracted from dark geometry
accumulated after it, which the claim forbids. -/
theorem C3_polarity_counterexample :
    (gerber_run [] (polarityOpsPre ++ polarityOpsPost) gerberInit).dark_geoms =
        [Geom.rectShape 0 0 2 2, Geom.rectShape 2 0 2 2] ∧
    (gerber_run [] (polarityOpsPre ++ polarityOpsPost) gerberInit).clear_geoms =
        [Geom.rectShape 0 0 6 2] ∧
    memG (Geom.rectShape 2 0 2 2) (2, 0) = true ∧
    memG (Geom.rectShape 0 0 2 2) (2, 0) = false ∧
    compose_dark_clear_mem
      (gerber_run [] (polarityOpsPre ++ polarityOpsPost) gerberInit).dark_geoms
      (gerber_run [] (polarityOpsPre ++ polarityOpsPost) gerberInit).clear_geoms
      (2, 0) = false := by
  refine ⟨?_, ?_, by norm_num [memG, inRect], by norm_num [memG, inRect], ?_⟩ <;>
    simp [polarityOpsPre, polarityOpsPost, gerber_run, gerber_step,
      gerberInit, apsUpd, apsGet, pad_from_ap, geomIsEmpty,
      compose_dark_clear_mem, memG, inRect] <;>
    norm_num

/-- Witness for C3: the amended theorem applied to the concrete file
above. -/
theorem C3_clear_subtracts_later_dark_witness :
    compose_dark_clear_mem
      (gerber_run [] (polarityOpsPre ++ polarityOpsPost) gerberInit).dark_geoms
      (gerber_run [] (polarityOpsPre ++ polarityOpsPost) gerberInit).clear_geoms
      (2, 0) = false :=
  C3_clear_subtracts_later_dark [] polarityOpsPre polarityOpsPost
    (Geom.rectShape 0 0 6 2) (2, 0)
    (by simp [polarityOpsPre, gerber_run, gerber_step, gerberInit,
      apsUpd, apsGet, pad_from_ap, geomIsEmpty])
    (by norm_num [memG, inRect])

/-! ### board_outline.py: `run_outline` — tab positions and walk depths

The `while` loops are fuel-indexed; `tabLoop`'s spacing is always
`length / 5`, so 6 fuel covers the loop, and the walk advances by at
least 1/2 per iteration, so `2·⌈length⌉ + 1` fuel covers it. -/

/-- `d = tab_spacing; while d < length: tab_positions.append(d); d += tab_spacing`. -/
def tabLoop (spacing length : ℚ) : ℕ → ℚ → List ℚ
  | 0, _ => []
  | fuel + 1, d =>
    if d < length then d :: tabLoop spacing length fuel (d + spacing) else []

/-- The tab positions of `run_outline`: equally spaced at
`tab_spacing = length * 0.20`, starting at `tab_spacing`, strictly below
`length`; empty when tabs are disabled or the outline is degenerate. -/
def tab_positions (tabs_enabled : Bool) (length : ℚ) : List ℚ :=
  if tabs_enabled ∧ 0 < length then
    tabLoop (length * (1 / 5)) length 6 (length * (1 / 5))
  else []

/-- `is_in_tab(dist)`: within `tab_half = 0.5` of some tab position. -/
def is_in_tab (tabs : List ℚ) (dist : ℚ) : Bool :=
  tabs.any fun t => decide (|dist - t| ≤ 1 / 2)

/-- The outline walk of `run_outline` (`ramp_len = 0` path): starting at
arc length 0, each 0.5 mm step emits a plunge to the tab depth when the
step's arc length is in a tab window and to the full depth otherwise. -/
def outlineWalk (length full_depth tab_depth : ℚ) (tabs : List ℚ) :
    ℕ → ℚ → List (ℚ × ℚ)
  | 0, _ => []
  | fuel + 1, dist =>
    if dist < length then
      (dist, if is_in_tab tabs dist then tab_depth else full_depth) ::
        outlineWalk length full_depth tab_depth tabs fuel (min (dist + 1 / 2) length)
    else []

/-- The `(arc length, cut depth)` pairs emitted along the outline. -/
def outline_depths (length full_depth tab_depth : ℚ) (tabs : List ℚ) :
    List (ℚ × ℚ) :=
  outlineWalk length full_depth tab_depth tabs (2 * (⌈length⌉).toNat + 1) 0

theorem outlineWalk_depth (length fd td : ℚ) (tabs : List ℚ) :
    ∀ (fuel : ℕ) (d0 : ℚ) (p : ℚ × ℚ),
      p ∈ outlineWalk length fd td tabs fuel d0 →
      p.2 = if ∃ t ∈ tabs, |p.1 - t| ≤ 1 / 2 then td else fd := by
  intro fuel
  induction fuel with
  | zero => intro d0 p hp; simp [outlineWalk] at hp
  | succ n ih =>
    intro d0 p hp
    rw [outlineWalk] at hp
    by_cases hd : d0 < length
    · rw [if_pos hd] at hp
      rcases List.mem_cons.mp hp with rfl | htail
      · have hiff : is_in_tab tabs d0 = true ↔ ∃ t ∈ tabs, |d0 - t| ≤ 1 / 2 := by
          rw [is_in_tab, List.any_eq_true]
          constructor
          · rintro ⟨t, ht, hdec⟩; exact ⟨t, ht, of_decide_eq_true hdec⟩
          · rintro ⟨t, ht, hle⟩; exact ⟨t, ht, decide_eq_true hle⟩
        by_cases hin : is_in_tab tabs d0 = true
        · simp only [hin, if_true]
          rw [if_pos (hiff.mp hin)]
        · rw [Bool.not_eq_true] at hin
          simp only [hin, Bool.false_eq_true, if_false]
          rw [if_neg (fun hc => by rw [hiff.mpr hc] at hin; exact Bool.noConfusion hin)]
      · exact ih _ p htail
    · rw [if_neg hd] at hp
      simp at hp

/-- C6 (amended): for a 100 mm outline with tabs enabled there are four
tabs, at arc lengths 20, 40, 60 and 80 (none at 100); every 0.5 mm walk
step whose arc length lies within the window `[t − 0.5, t + 0.5]` of one
of those tab positions is emitted at depth `0.75 · pcb_thickness`, and
every other step at the full `pcb_thickness`. -/
theorem C6_outline_tabs (th : ℚ) :
    tab_positions true 100 = [20, 40, 60, 80] ∧
    ∀ p ∈ outline_depths 100 th (th * (3 / 4)) (tab_positions true 100),
      p.2 = if ∃ t ∈ tab_positions true 100, |p.1 - t| ≤ 1 / 2
        then th * (3 / 4) else th := by
  have htabs : tab_positions true 100 = [20, 40, 60, 80] := by
    norm_num [tab_positions, tabLoop]
  refine ⟨htabs, ?_⟩
  intro p hp
  exact outlineWalk_depth 100 th (th * (3 / 4)) (tab_positions true 100) _ 0 p hp

theorem outlineWalk_mem (length fd td : ℚ) (tabs : List ℚ) :
    ∀ (k fuel : ℕ) (d0 : ℚ), k < fuel → d0 + (k : ℚ) * (1 / 2) < length →
      (d0 + (k : ℚ) * (1 / 2),
        if is_in_tab tabs (d0 + (k : ℚ) * (1 / 2)) then td else fd)
        ∈ outlineWalk length fd td tabs fuel d0 := by
  intro k
  induction k with
  | zero =>
    intro fuel d0 hk hd
    obtain ⟨n, rfl⟩ : ∃ n, fuel = n + 1 := ⟨fuel - 1, by omega⟩
    rw [outlineWalk]
    rw [if_pos (by simpa using hd)]
    simp
  | succ m ih =>
    intro fuel d0 hk hd
    obtain ⟨n, rfl⟩ : ∃ n, fuel = n + 1 := ⟨fuel - 1, by omega⟩
    have hstep : d0 + 1 / 2 ≤ length := by
      have h1 : (1 : ℚ) ≤ (m + 1 : ℕ) := by exact_mod_cast Nat.one_le_iff_ne_zero.mpr (by omega)
      nlinarith [hd]
    have hd0 : d0 < length := by
      have : (0 : ℚ) < ((m + 1 : ℕ) : ℚ) * (1 / 2) := by
        have : (0 : ℚ) < ((m + 1 : ℕ) : ℚ) := by exact_mod_cast Nat.succ_pos m
        linarith
      linarith
    rw [outlineWalk, if_pos hd0]
    refine List.mem_cons_of_mem _ ?_
    have hmin : min (d0 + 1 / 2) length = d0 + 1 / 2 := min_eq_left hstep
    rw [hmin]
    have heq : d0 + 1 / 2 + (m : ℚ) * (1 / 2) = d0 + ((m + 1 : ℕ) : ℚ) * (1 / 2) := by
      push_cast
      ring
    have hlt : d0 + 1 / 2 + (m : ℚ) * (1 / 2) < length := by rw [heq]; exact hd
    have := ih n (d0 + 1 / 2) (by omega) hlt
    rwa [heq] at this

/-- C6 counterexample: with perimeter 100 and `pcb_thickness = 1.6` there
are only 4 tab positions — there is no fifth tab at arc length 100 — and
the walk step at arc length 99.5, although within the 1 mm window
`[99.5, 100.5]` of the claimed tab position 100, is emitted at the full
depth `1.6`, not at `0.75 · 1.6`. -/
theorem C6_outline_tabs_counterexample :
    (tab_positions true 100).length = 4 ∧
    ¬ ((100 : ℚ) ∈ tab_positions true 100) ∧
    |(199 / 2 : ℚ) - 100| ≤ 1 / 2 ∧
    ((199 / 2 : ℚ), (8 / 5 : ℚ)) ∈
      outline_depths 100 (8 / 5) ((8 / 5) * (3 / 4)) (tab_positions true 100) ∧
    ((8 / 5 : ℚ) ≠ (8 / 5) * (3 / 4)) := by
  have htabs : tab_positions true 100 = [20, 40, 60, 80] := by
    norm_num [tab_positions, tabLoop]
  refine ⟨by rw [htabs]; rfl, by rw [htabs]; norm_num, by rw [abs_le]; norm_num,
    ?_, by norm_num⟩
  have hmem := outlineWalk_mem 100 (8 / 5) ((8 / 5) * (3 / 4))
    (tab_positions true 100) 199 (2 * (⌈(100 : ℚ)⌉).toNat + 1) 0
    (by norm_num [Int.toNat]) (by norm_num)
  rw [outline_depths]
  have harg : (0 : ℚ) + ((199 : ℕ) : ℚ) * (1 / 2) = 199 / 2 := by push_cast; ring
  rw [harg] at hmem
  have hnotin : is_in_tab (tab_positions true 100) (199 / 2) = false := by
    rw [htabs]
    norm_num [is_in_tab, abs_of_nonneg, abs_of_nonpos]
  rw [hnotin] at hmem
  simpa using hmem

/-- Witness for C6: the amended theorem applied at the walk step of arc
length 20, which lies in the window of the tab at 20. -/
theorem C6_outline_tabs_witness :
    ((20 : ℚ), (8 / 5 : ℚ) * (3 / 4)).2 =
      if ∃ t ∈ tab_positions true 100,
          |((20 : ℚ), (8 / 5 : ℚ) * (3 / 4)).1 - t| ≤ 1 / 2
      then (8 / 5 : ℚ) * (3 / 4) else 8 / 5 := by
  have htabs : tab_positions true 100 = [20, 40, 60, 80] := by
    norm_num [tab_positions, tabLoop]
  have hmem := outlineWalk_mem 100 (8 / 5) ((8 / 5) * (3 / 4))
    (tab_positions true 100) 40 (2 * (⌈(100 : ℚ)⌉).toNat + 1) 0
    (by norm_num [Int.toNat]) (by norm_num)
  have harg : (0 : ℚ) + ((40 : ℕ) : ℚ) * (1 / 2) = 20 := by push_cast; ring
  rw [harg] at hmem
  have hin : is_in_tab (tab_positions true 100) 20 = true := by
    rw [htabs]
    norm_num [is_in_tab, abs_of_nonneg, abs_of_nonpos]
  rw [hin] at hmem
  exact (C6_outline_tabs (8 / 5)).2 (20, (8 / 5) * (3 / 4)) (by simpa using hmem)

/-! ### geom_utils.py: `order_lines_nearest`

Polylines are non-empty coordinate lists; `float("inf")` is modelled by
`Option ℚ` with `none` as infinity; the selection loop carries
`(best_i, best_flip, best_d2)` and the outer loop pops the selected
polyline (fuel = number of remaining polylines). -/

/-- `_dist2` (geom_utils.py). -/
def d2pt (a b : ℚ × ℚ) : ℚ :=
  (a.1 - b.1) * (a.1 - b.1) + (a.2 - b.2) * (a.2 - b.2)

/-- `d2 < best_d2`, where `none` is `float("inf")`. -/
def ltInf (a : ℚ) : Option ℚ → Bool
  | none => true
  | some b => decide (a < b)

/-- The `for i, ls in enumerate(remaining)` selection loop of
`order_lines_nearest`, with the running index `n` explicit. -/
def bestPickAux (cur : ℚ × ℚ) (ar : Bool) :
    List (List (ℚ × ℚ)) → ℕ → ℕ × Bool × Option ℚ → ℕ × Bool × Option ℚ
  | [], _, st => st
  | pts :: rest, n, st =>
    let s := pts.headD (0, 0)
    let e := pts.getLastD (0, 0)
    let st1 := if ltInf (d2pt cur s) st.2.2 then (n, false, some (d2pt cur s)) else st
    let st2 := if ar && ltInf (d2pt cur e) st1.2.2 then (n, true, some (d2pt cur e)) else st1
    bestPickAux cur ar rest (n + 1) st2

/-- The `while remaining:` loop of `order_lines_nearest`; fuel is the
number of polylines still to place. -/
def orderGo (ar : Bool) : ℕ → ℚ × ℚ → List (List (ℚ × ℚ)) → List (List (ℚ × ℚ))
  | 0, _, _ => []
  | fuel + 1, cur, rem =>
    if rem.isEmpty then []
    else
      let r := bestPickAux cur ar rem 0 (0, false, none)
      let pick0 := rem.getD r.1 []
      let pick := if r.2.1 then pick0.reverse else pick0
      pick :: orderGo ar fuel (pick.getLastD (0, 0)) (rem.eraseIdx r.1)

/-- `order_lines_nearest` (geom_utils.py). -/
def order_lines_nearest (lines : List (List (ℚ × ℚ))) (start_xy : ℚ × ℚ)
    (allow_reverse : Bool) : List (List (ℚ × ℚ)) :=
  let remaining := lines.filter (fun l => decide (2 ≤ l.length))
  orderGo allow_reverse remaining.length start_xy remaining

/-- Total cursor travel of visiting a list of polylines in order from a
start point: the polylines are entered at their first coordinate and
exited at their last. -/
noncomputable def totalTravel (start : ℚ × ℚ) : List (List (ℚ × ℚ)) → ℝ
  | [] => 0
  | l :: ls =>
    Real.sqrt ((d2pt start (l.headD (0, 0)) : ℚ) : ℝ) +
      totalTravel (l.getLastD (0, 0)) ls

theorem bpa_spec (cur : ℚ × ℚ) (ar : Bool) :
    ∀ (L : List (List (ℚ × ℚ))) (n : ℕ) (st : ℕ × Bool × Option ℚ),
      (∀ v, st.2.2 = some v →
        ∃ w, (bestPickAux cur ar L n st).2.2 = some w ∧ w ≤ v) ∧
      (∀ pts ∈ L, ∃ w, (bestPickAux cur ar L n st).2.2 = some w ∧
        w ≤ d2pt cur (pts.headD (0, 0)) ∧
        (ar = true → w ≤ d2pt cur (pts.getLastD (0, 0)))) ∧
      (bestPickAux cur ar L n st = st ∨
        ∃ k, k < L.length ∧ (bestPickAux cur ar L n st).1 = n + k ∧
          (((bestPickAux cur ar L n st).2.1 = false ∧
            (bestPickAux cur ar L n st).2.2 =
              some (d2pt cur ((L.getD k []).headD (0, 0)))) ∨
           ((bestPickAux cur ar L n st).2.1 = true ∧
            (bestPickAux cur ar L n st).2.2 =
              some (d2pt cur ((L.getD k []).getLastD (0, 0)))))) := by
  intro L
  induction L with
  | nil =>
    intro n st
    refine ⟨fun v hv => ⟨v, hv, le_refl v⟩, fun pts hp => absurd hp (List.not_mem_nil pts), Or.inl rfl⟩
  | cons pts rest ih =>
    intro n st
    obtain ⟨bi, bflip, bd⟩ := st
    set s := pts.headD (0, 0) with hs
    set e := pts.getLastD (0, 0) with he
    set st1 := if ltInf (d2pt cur s) bd then (n, false, some (d2pt cur s)) else (bi, bflip, bd) with hst1
    set st2 := if ar && ltInf (d2pt cur e) st1.2.2 then (n, true, some (d2pt cur e)) else st1 with hst2
    have hrun : bestPickAux cur ar (pts :: rest) n (bi, bflip, bd) =
        bestPickAux cur ar rest (n + 1) st2 := by
      rw [bestPickAux]
    -- st1's bound is some and ≤ d2 s, and ≤ any bd value
    have hst1some : ∃ w1, st1.2.2 = some w1 ∧ w1 ≤ d2pt cur s ∧
        (∀ v, bd = some v → w1 ≤ v) := by
      rw [hst1]
      by_cases hlt : ltInf (d2pt cur s) bd = true
      · rw [if_pos hlt]
        refine ⟨d2pt cur s, rfl, le_refl _, ?_⟩
        intro v hv
        rw [hv] at hlt
        exact le_of_lt (of_decide_eq_true hlt)
      · rw [if_neg hlt]
        cases hbd : bd with
        | none => rw [hbd] at hlt; exact absurd rfl hlt
        | some b =>
          rw [hbd] at hlt
          have : ¬ d2pt cur s < b := fun hc => hlt (decide_eq_true hc)
          refine ⟨b, rfl, le_of_not_lt this, fun v hv => ?_⟩
          rw [Option.some_inj.mp hv]
    obtain ⟨w1, hw1, hw1s, hw1bd⟩ := hst1some
    have hst2some : ∃ w2, st2.2.2 = some w2 ∧ w2 ≤ d2pt cur s ∧
        (ar = true → w2 ≤ d2pt cur e) ∧ (∀ v, bd = some v → w2 ≤ v) := by
      rw [hst2]
      by_cases hlt : (ar && ltInf (d2pt cur e) st1.2.2) = true
      · rw [if_pos hlt]
        rcases (Bool.and_eq_true _ _).mp hlt with ⟨har, hlt2⟩
        rw [hw1] at hlt2
        have hde : d2pt cur e < w1 := of_decide_eq_true hlt2
        exact ⟨d2pt cur e, rfl, le_trans (le_of_lt hde) hw1s, fun _ => le_refl _,
          fun v hv => le_trans (le_of_lt hde) (hw1bd v hv)⟩
      · rw [if_neg hlt]
        refine ⟨w1, hw1, hw1s, ?_, hw1bd⟩
        intro har
        rw [har, Bool.true_and, hw1] at hlt
        have : ¬ d2pt cur e < w1 := fun hc => hlt (decide_eq_true hc)
        exact le_of_not_lt this
    obtain ⟨w2, hw2, hw2s, hw2e, hw2bd⟩ := hst2some
    obtain ⟨ih1, ih2, ih3⟩ := ih (n + 1) st2
    refine ⟨?_, ?_, ?_⟩
    · intro v hv
      obtain ⟨w, hw, hwle⟩ := ih1 w2 hw2
      rw [hrun]
      exact ⟨w, hw, le_trans hwle (hw2bd v hv)⟩
    · intro q hq
      rcases List.mem_cons.mp hq with rfl | hqrest
      · obtain ⟨w, hw, hwle⟩ := ih1 w2 hw2
        rw [hrun]
        exact ⟨w, hw, le_trans hwle hw2s, fun har => le_trans hwle (hw2e har)⟩
      · obtain ⟨w, hw, hw1', hw2'⟩ := ih2 q hqrest
        rw [hrun]
        exact ⟨w, hw, hw1', hw2'⟩
    · rw [hrun]
      rcases ih3 with heq | ⟨k, hk, hidx, hach⟩
      · -- result = st2: st2 is st, or selects index n (the head)
        rw [heq, hst2]
        by_cases hlt : (ar && ltInf (d2pt cur e) st1.2.2) = true
        · rw [if_pos hlt]
          exact Or.inr ⟨0, Nat.succ_pos _, by simp, Or.inr ⟨rfl, by simp [he]⟩⟩
        · rw [if_neg hlt, hst1]
          by_cases hlt1 : ltInf (d2pt cur s) bd = true
          · rw [if_pos hlt1]
            exact Or.inr ⟨0, Nat.succ_pos _, by simp, Or.inl ⟨rfl, by simp [hs]⟩⟩
          · rw [if_neg hlt1]
            exact Or.inl rfl
      · right
        refine ⟨k + 1, by simpa using hk, by omega, ?_⟩
        simpa using hach

theorem headD_reverse {α : Type _} (l : List α) (d : α) :
    l.reverse.headD d = l.getLastD d := by
  rw [List.headD_eq_head?, List.head?_reverse, List.getLastD_eq_getLast?]

/-- C7 (amended): each selection step of the nearest-neighbor ordering
enters the polyline whose nearer endpoint (start, or end with reversal)
minimises the squared distance from the cursor over all unplaced
polylines — the emitted polyline's first point after any reversal is at
minimal distance from the cursor; the full ordering is the iteration of
this step over the ≥ 2-point polylines.  The claimed global bound
`greedy travel ≤ input-order travel` is false (see the counterexample). -/
theorem C7_order_step_nearest :
    (∀ (cur : ℚ × ℚ) (rem : List (List (ℚ × ℚ))) (fuel : ℕ), rem ≠ [] →
      ∃ first rest, orderGo true (fuel + 1) cur rem = first :: rest ∧
        ∀ l ∈ rem, d2pt cur (first.headD (0, 0)) ≤ d2pt cur (l.headD (0, 0)) ∧
          d2pt cur (first.headD (0, 0)) ≤ d2pt cur (l.getLastD (0, 0))) ∧
    (∀ (lines : List (List (ℚ × ℚ))) (start_xy : ℚ × ℚ),
      order_lines_nearest lines start_xy true =
        orderGo true (lines.filter fun l => decide (2 ≤ l.length)).length
          start_xy (lines.filter fun l => decide (2 ≤ l.length))) := by
  constructor
  · intro cur rem fuel hne
    obtain ⟨spec1, spec2, spec3⟩ := bpa_spec cur true rem 0 (0, false, none)
    obtain ⟨q, qs, rfl⟩ : ∃ q qs, rem = q :: qs := by
      cases rem with
      | nil => exact absurd rfl hne
      | cons q qs => exact ⟨q, qs, rfl⟩
    set r := bestPickAux cur true (q :: qs) 0 (0, false, none) with hr
    obtain ⟨w, hw, hws, hwe⟩ := spec2 q (List.mem_cons_self _ _)
    have hnotst : r ≠ (0, false, none) := by
      intro hc
      rw [hc] at hw
      exact Option.noConfusion hw
    rcases spec3 with hst | ⟨k, hk, hidx, hach⟩
    · exact absurd hst hnotst
    · have hki : k = r.1 := by omega
      subst hki
      have hgo : orderGo true (fuel + 1) cur (q :: qs) =
          (if r.2.1 then ((q :: qs).getD r.1 []).reverse else (q :: qs).getD r.1 []) ::
            orderGo true fuel
              ((if r.2.1 then ((q :: qs).getD r.1 []).reverse else (q :: qs).getD r.1 []).getLastD (0, 0))
              ((q :: qs).eraseIdx r.1) := by
        rw [orderGo, if_neg (by simp)]
      refine ⟨_, _, hgo, ?_⟩
      intro l hl
      obtain ⟨w', hw', hws', hwe'⟩ := spec2 l hl
      have hentry : d2pt cur
          ((if r.2.1 then ((q :: qs).getD r.1 []).reverse
            else (q :: qs).getD r.1 []).headD (0, 0)) = w' := by
        rcases hach with ⟨hflip, hval⟩ | ⟨hflip, hval⟩
        · rw [hflip]
          simp only [Bool.false_eq_true, if_false]
          rw [hval] at hw'
          exact Option.some_inj.mp hw'
        · rw [hflip, if_pos rfl, headD_reverse]
          rw [hval] at hw'
          exact Option.some_inj.mp hw'
      rw [hentry]
      exact ⟨hws', hwe' rfl⟩
  · intro lines start_xy
    rfl

/-- Witness for C7: the step theorem applied to a single polyline. -/
theorem C7_order_step_nearest_witness :
    ∃ first rest, orderGo true 1 (0, 0) [[((0 : ℚ), (0 : ℚ)), (1, 0)]] = first :: rest ∧
      ∀ l ∈ [[((0 : ℚ), (0 : ℚ)), (1, 0)]],
        d2pt (0, 0) (first.headD (0, 0)) ≤ d2pt (0, 0) (l.headD (0, 0)) ∧
        d2pt (0, 0) (first.headD (0, 0)) ≤ d2pt (0, 0) (l.getLastD (0, 0)) :=
  C7_order_step_nearest.1 (0, 0) [[((0 : ℚ), (0 : ℚ)), (1, 0)]] 0 (by simp)

/-- Two open polylines on the x-axis: visiting them in input order from
the origin costs 2 + 2 = 4 of travel, but the greedy ordering first
grabs the nearby start of the long polyline and pays its far exit. -/
def travLines : List (List (ℚ × ℚ)) :=
  [[(2, 0), (3, 0)], [(1, 0), (100, 0)]]

/-- C7 counterexample: the nearest-neighbor-with-reversal ordering of
`travLines` from `(0,0)` travels `1 + 97 = 98`, strictly more than the
`2 + 2 = 4` of the input order — the claimed bound
`greedy ≤ input order` fails. -/
theorem C7_order_travel_counterexample :
    order_lines_nearest travLines (0, 0) true =
        [[(1, 0), (100, 0)], [(3, 0), (2, 0)]] ∧
    totalTravel (0, 0) (order_lines_nearest travLines (0, 0) true) = 98 ∧
    totalTravel (0, 0) travLines = 4 ∧
    ¬ ((98 : ℝ) ≤ 4) := by
  have hord : order_lines_nearest travLines (0, 0) true =
      [[(1, 0), (100, 0)], [(3, 0), (2, 0)]] := by
    norm_num [travLines, order_lines_nearest, orderGo, bestPickAux, ltInf, d2pt]
  refine ⟨hord, ?_, ?_, by norm_num⟩
  · rw [hord]
    rw [totalTravel, totalTravel, totalTravel]
    have h1 : ((d2pt (0, 0) ([((1 : ℚ), (0 : ℚ)), (100, 0)].headD (0, 0)) : ℚ) : ℝ) = 1 := by
      norm_num [d2pt]
    have h2 : ((d2pt ([((1 : ℚ), (0 : ℚ)), (100, 0)].getLastD (0, 0))
        ([((3 : ℚ), (0 : ℚ)), (2, 0)].headD (0, 0)) : ℚ) : ℝ) = 9409 := by
      norm_num [d2pt]
    rw [h1, h2]
    rw [show (9409 : ℝ) = 97 ^ 2 by norm_num,
      Real.sqrt_sq (by norm_num : (0 : ℝ) ≤ 97), Real.sqrt_one]
    norm_num
  · rw [travLines]
    rw [totalTravel, totalTravel, totalTravel]
    have h1 : ((d2pt (0, 0) ([((2 : ℚ), (0 : ℚ)), (3, 0)].headD (0, 0)) : ℚ) : ℝ) = 4 := by
      norm_num [d2pt]
    have h2 : ((d2pt ([((2 : ℚ), (0 : ℚ)), (3, 0)].getLastD (0, 0))
        ([((1 : ℚ), (0 : ℚ)), (100, 0)].headD (0, 0)) : ℚ) : ℝ) = 4 := by
      norm_num [d2pt]
    rw [h1, h2]
    rw [show (4 : ℝ) = 2 ^ 2 by norm_num,
      Real.sqrt_sq (by norm_num : (0 : ℝ) ≤ 2)]
    norm_num

/-! ### ui/main_window.py: `_plan_drills_for_holes`

Candidate bits are represented by their diameters (the source reads only
`b["diameter"]` to sort, index and report; the claim concerns only the
error level and the plan size).  `assign_idx` is a list of `ℤ` with `-1`
as "no drill"; `used` is the sorted duplicate-free list of used indices;
the `while len(used) > max_bits` loop is fuel-indexed with fuel
`used.length + 1`, which covers it since every iteration removes one
element of `used`. -/

/-- The scan of `best_drill_index_for`: ascending drills, skip indices
not in `allowed_idx`, remember the last feasible index, break at the
first allowed infeasible one. -/
def bdiGo (limit : ℚ) (allowed : Option (List ℕ)) :
    List ℚ → ℕ → ℤ → ℤ
  | [], _, best => best
  | d :: rest, i, best =>
    match allowed with
    | some a =>
      if a.contains i then
        if d ≤ limit + matchEps then bdiGo limit allowed rest (i + 1) (i : ℤ)
        else best
      else bdiGo limit allowed rest (i + 1) best
    | none =>
      if d ≤ limit + matchEps then bdiGo limit allowed rest (i + 1) (i : ℤ)
      else best

/-- `best_drill_index_for(hd, allowed_idx)` (ui/main_window.py). -/
def best_drill_index_for (ds : List ℚ) (tol hd : ℚ)
    (allowed : Option (List ℕ)) : ℤ :=
  bdiGo (hd + tol) allowed ds 0 (-1)

/-- Lexicographic `<` on `(hole count, diameter)` sort keys. -/
def keyLt (a b : ℕ × ℚ) : Bool :=
  decide (a.1 < b.1) || (decide (a.1 = b.1) && decide (a.2 < b.2))

/-- First list element with minimal key (`sorted(droppable, key=...)[0]`:
stable sort, first-seen wins ties). -/
def argminFirst (key : ℕ → ℕ × ℚ) : List ℕ → ℕ → ℕ
  | [], best => best
  | i :: rest, best =>
    argminFirst key rest (if keyLt (key i) (key best) then i else best)

/-- The droppability test for a used drill `di`: every hole currently
assigned to `di` can be reassigned to a drill in `used - {di}`
(`for hd in holes_by.get(di, []): best_drill_index_for(hd, other)`). -/
def dropCheck (ds : List ℚ) (tol : ℚ) (hole_ds : List ℚ) (assign : List ℤ)
    (used : List ℕ) (di : ℕ) : Bool :=
  (hole_ds.zip assign).all (fun p =>
    if p.2 = (di : ℤ) then
      decide (0 ≤ best_drill_index_for ds tol p.1
        (some (used.filter (fun j => j ≠ di))))
    else true)

/-- The `droppable` list of one loop iteration. -/
def droppableOf (ds : List ℚ) (tol : ℚ) (hole_ds : List ℚ) (assign : List ℤ)
    (used : List ℕ) : List ℕ :=
  used.filter (dropCheck ds tol hole_ds assign used)

/-- `droppable.sort(key=lambda i: (holes_cnt[i], ds[i])); drop = droppable[0]`:
the first droppable index with minimal (hole count, diameter) key. -/
def dropOf (ds : List ℚ) (tol : ℚ) (hole_ds : List ℚ) (assign : List ℤ)
    (used : List ℕ) : ℕ :=
  let key := fun i : ℕ =>
    ((assign.filter (fun a => a = (i : ℤ))).length, ds.getD i 0)
  let droppable := droppableOf ds tol hole_ds assign used
  argminFirst key (droppable.drop 1) (droppable.headD 0)

/-- Reassign the holes of the dropped drill within the shrunk used set. -/
def reassignOf (ds : List ℚ) (tol : ℚ) (hole_ds : List ℚ) (assign : List ℤ)
    (used' : List ℕ) (drop : ℕ) : List ℤ :=
  (hole_ds.zip assign).map (fun p =>
    if p.2 = (drop : ℤ) then best_drill_index_for ds tol p.1 (some used')
    else p.2)

/-- The `while len(used) > max_bits:` reduction loop of
`_plan_drills_for_holes`: find the droppable drills (each of whose holes
can be reassigned to another used drill), drop the one with the fewest
holes (tie-break: smallest diameter), reassign its holes, repeat. -/
def planLoop (ds : List ℚ) (tol : ℚ) (hole_ds : List ℚ) (max_bits : ℕ) :
    ℕ → List ℤ → List ℕ → Option (List ℚ)
  | 0, _, _ => none
  | fuel + 1, assign, used =>
    if used.length ≤ max_bits then
      some (List.insertionSort (fun a b : ℚ => b ≤ a)
        (used.map (fun i => ds.getD i 0)))
    else if (droppableOf ds tol hole_ds assign used).isEmpty then none
    else
      planLoop ds tol hole_ds max_bits fuel
        (reassignOf ds tol hole_ds assign
          (used.erase (dropOf ds tol hole_ds assign used))
          (dropOf ds tol hole_ds assign used))
        (used.erase (dropOf ds tol hole_ds assign used))

/-- `_plan_drills_for_holes` (ui/main_window.py): `some planned` for the
`"ok"` level (with the planned diameters sorted descending), `none` for
either `"error"` return. -/
def plan_drills_for_holes (hole_ds candidate_bits : List ℚ) (tol : ℚ)
    (max_bits : ℕ) : Option (List ℚ) :=
  if hole_ds.isEmpty then some []
  else if candidate_bits.isEmpty then none
  else
    let ds := List.insertionSort (· ≤ ·) candidate_bits
    let assign0 := hole_ds.map (fun hd => best_drill_index_for ds tol hd none)
    if assign0.any (fun i => decide (i < 0)) then none
    else
      let used0 := List.insertionSort (· ≤ ·)
        (((assign0.filter (fun i => decide (0 ≤ i))).map Int.toNat).dedup)
      planLoop ds tol hole_ds max_bits (used0.length + 1) assign0 used0

/-- Membership test matching `allowed_idx is None or i in allowed_idx`. -/
def allowedOk (al : Option (List ℕ)) (i : ℕ) : Prop :=
  match al with
  | none => True
  | some a => i ∈ a

theorem bdiGo_nonneg_init (limit : ℚ) (al : Option (List ℕ)) :
    ∀ (L : List ℚ) (n : ℕ) (best : ℤ), 0 ≤ best →
      0 ≤ bdiGo limit al L n best := by
  intro L
  induction L with
  | nil => intro n best h; simpa [bdiGo] using h
  | cons d rest ih =>
    intro n best h
    cases al with
    | none =>
      by_cases hd : d ≤ limit + matchEps
      · simpa [bdiGo, hd] using ih (n + 1) n (by positivity)
      · simpa [bdiGo, hd] using h
    | some a =>
      by_cases hc : n ∈ a
      · by_cases hd : d ≤ limit + matchEps
        · simpa [bdiGo, hc, hd] using ih (n + 1) n (by positivity)
        · simpa [bdiGo, hc, hd] using h
      · simpa [bdiGo, hc] using ih (n + 1) best h

theorem bdiGo_spec (ds : List ℚ) (limit : ℚ) (al : Option (List ℕ)) :
    ∀ (L : List ℚ) (n : ℕ) (best : ℤ), ds.drop n = L →
      (best = -1 ∨ ∃ i : ℕ, best = (i : ℤ) ∧ allowedOk al i ∧
        i < ds.length ∧ ds.getD i 0 ≤ limit + matchEps) →
      (bdiGo limit al L n best = -1 ∨ ∃ i : ℕ,
        bdiGo limit al L n best = (i : ℤ) ∧ allowedOk al i ∧
        i < ds.length ∧ ds.getD i 0 ≤ limit + matchEps) := by
  intro L
  induction L with
  | nil => intro n best _ hP; simpa [bdiGo] using hP
  | cons d rest ih =>
    intro n best hdrop hP
    have hn : ds[n]? = some d := by
      have := List.getElem?_drop ds n 0
      rw [hdrop] at this
      simpa using this.symm
    have hnlen : n < ds.length := (List.getElem?_eq_some.mp hn).1
    have hdval : ds.getD n 0 = d := by
      rw [List.getD_eq_getElem?_getD, hn]; rfl
    have hrest : ds.drop (n + 1) = rest := by
      rw [← List.tail_drop, hdrop]; rfl
    have hgood : ∀ hc : allowedOk al n, d ≤ limit + matchEps →
        (bdiGo limit al rest (n + 1) (n : ℤ) = -1 ∨ ∃ i : ℕ,
          bdiGo limit al rest (n + 1) (n : ℤ) = (i : ℤ) ∧ allowedOk al i ∧
          i < ds.length ∧ ds.getD i 0 ≤ limit + matchEps) := by
      intro hc hd
      exact ih (n + 1) (n : ℤ) hrest (Or.inr ⟨n, rfl, hc, hnlen, hdval ▸ hd⟩)
    cases al with
    | none =>
      by_cases hd : d ≤ limit + matchEps
      · simpa [bdiGo, hd] using hgood trivial hd
      · simpa [bdiGo, hd] using hP
    | some a =>
      by_cases hc : n ∈ a
      · by_cases hd : d ≤ limit + matchEps
        · simpa [bdiGo, hc, hd] using hgood (by simpa [allowedOk] using hc) hd
        · simpa [bdiGo, hc, hd] using hP
      · simpa [bdiGo, hc] using ih (n + 1) best hrest hP

theorem bdi_some_spec (ds : List ℚ) (tol hd : ℚ) (al : Option (List ℕ))
    (h : 0 ≤ best_drill_index_for ds tol hd al) :
    ∃ i : ℕ, best_drill_index_for ds tol hd al = (i : ℤ) ∧ allowedOk al i ∧
      i < ds.length ∧ ds.getD i 0 ≤ hd + tol + matchEps := by
  have := bdiGo_spec ds (hd + tol) al ds 0 (-1) (by simp) (Or.inl rfl)
  rcases this with hneg | ⟨i, hi⟩
  · rw [best_drill_index_for] at h
    omega
  · exact ⟨i, hi⟩

theorem bdiGo_reaches (ds : List ℚ) (limit : ℚ) (a : List ℕ) :
    ∀ (L : List ℚ) (n : ℕ) (best : ℤ), ds.drop n = L →
      (∃ k, n ≤ k ∧ k < ds.length ∧ k ∈ a ∧
        ds.getD k 0 ≤ limit + matchEps ∧
        ∀ j, n ≤ j → j < k → j ∈ a → ds.getD j 0 ≤ limit + matchEps) →
      0 ≤ bdiGo limit (some a) L n best := by
  intro L
  induction L with
  | nil =>
    intro n best hdrop hk
    rcases hk with ⟨k, hnk, hklen, -, -, -⟩
    have : ds.length ≤ n := by
      have := List.drop_eq_nil_iff.mp hdrop
      exact this
    omega
  | cons d rest ih =>
    intro n best hdrop hk
    have hn : ds[n]? = some d := by
      have := List.getElem?_drop ds n 0
      rw [hdrop] at this
      simpa using this.symm
    have hdval : ds.getD n 0 = d := by
      rw [List.getD_eq_getElem?_getD, hn]; rfl
    have hrest : ds.drop (n + 1) = rest := by
      rw [← List.tail_drop, hdrop]; rfl
    rcases hk with ⟨k, hnk, hklen, hka, hkfe, hbelow⟩
    by_cases hc : n ∈ a
    · by_cases hd : d ≤ limit + matchEps
      · simpa [bdiGo, hc, hd] using
          bdiGo_nonneg_init limit (some a) rest (n + 1) n (by positivity)
      · exfalso
        rcases Nat.eq_or_lt_of_le hnk with rfl | hlt
        · exact hd (hdval ▸ hkfe)
        · exact hd (hdval ▸ hbelow n le_rfl hlt hc)
    · have hkn : k ≠ n := fun h => hc (h ▸ hka)
      have := ih (n + 1) best hrest
        ⟨k, by omega, hklen, hka, hkfe, fun j hj hjk hja => hbelow j (by omega) hjk hja⟩
      simpa [bdiGo, hc] using this

theorem sorted_getD_mono (ds : List ℚ) (hs : ds.Sorted (· ≤ ·))
    {i j : ℕ} (hij : i ≤ j) (hj : j < ds.length) :
    ds.getD i 0 ≤ ds.getD j 0 := by
  have hi : i < ds.length := lt_of_le_of_lt hij hj
  rw [List.getD_eq_getElem?_getD, List.getD_eq_getElem?_getD,
    List.getElem?_eq_getElem hi, List.getElem?_eq_getElem hj]
  exact hs.rel_get_of_le (a := ⟨i, hi⟩) (b := ⟨j, hj⟩) (Fin.mk_le_mk.mpr hij)

theorem bdi_nonneg (ds : List ℚ) (tol hd : ℚ) (a : List ℕ)
    (hs : ds.Sorted (· ≤ ·)) (i0 : ℕ) (hmem : i0 ∈ a) (hlen : i0 < ds.length)
    (hfe : ds.getD i0 0 ≤ hd + tol + matchEps) :
    0 ≤ best_drill_index_for ds tol hd (some a) := by
  refine bdiGo_reaches ds (hd + tol) a ds 0 (-1) (by simp) ?_
  exact ⟨i0, Nat.zero_le _, hlen, hmem, hfe,
    fun j _ hji _ => le_trans (sorted_getD_mono ds hs (le_of_lt hji) hlen) hfe⟩

theorem foldl_max_init : ∀ (l : List ℕ) (a : ℕ), a ≤ l.foldl max a := by
  intro l
  induction l with
  | nil => intro a; exact le_rfl
  | cons b rest ih =>
    intro a
    exact le_trans (le_max_left a b) (ih (max a b))

theorem foldl_max_ge : ∀ (l : List ℕ) (a : ℕ), ∀ x ∈ l, x ≤ l.foldl max a := by
  intro l
  induction l with
  | nil => intro a x hx; cases hx
  | cons b rest ih =>
    intro a x hx
    rcases List.mem_cons.mp hx with rfl | hx
    · exact le_trans (le_max_right a x) (foldl_max_init rest (max a x))
    · exact ih (max a b) x hx

theorem foldl_max_mem : ∀ (l : List ℕ) (a : ℕ),
    l.foldl max a ∈ l ∨ l.foldl max a = a := by
  intro l
  induction l with
  | nil => intro a; exact Or.inr rfl
  | cons b rest ih =>
    intro a
    rcases ih (max a b) with h | h
    · exact Or.inl (List.mem_cons_of_mem _ h)
    · rw [List.foldl_cons, h]
      rcases max_choice a b with hm | hm
      · exact Or.inr hm
      · exact Or.inl (by rw [hm]; exact List.mem_cons_self _ _)

theorem argminFirst_mem (key : ℕ → ℕ × ℚ) :
    ∀ (l : List ℕ) (best : ℕ),
      argminFirst key l best ∈ l ∨ argminFirst key l best = best := by
  intro l
  induction l with
  | nil => intro best; exact Or.inr rfl
  | cons i rest ih =>
    intro best
    rw [argminFirst]
    rcases ih (if keyLt (key i) (key best) then i else best) with h | h
    · exact Or.inl (List.mem_cons_of_mem _ h)
    · rw [h]
      by_cases hk : keyLt (key i) (key best)
      · simp only [hk, if_true]
        exact Or.inl (List.mem_cons_self _ _)
      · simp only [hk, if_false]
        exact Or.inr rfl

/-- Loop invariant of the drill-reduction loop: the assignment list is
parallel to the holes, and every hole is assigned a used, in-range,
feasible (within `tol + 1e-9`) drill index. -/
def planInv (ds : List ℚ) (tol : ℚ) (hole_ds : List ℚ) (assign : List ℤ)
    (used : List ℕ) : Prop :=
  assign.length = hole_ds.length ∧ used.Nodup ∧
  (∀ i ∈ used, i < ds.length) ∧
  ∀ k, k < hole_ds.length → ∃ i : ℕ, assign.getD k 0 = (i : ℤ) ∧ i ∈ used ∧
    ds.getD i 0 ≤ hole_ds.getD k 0 + tol + matchEps

theorem getD_of_lt {α : Type _} [Inhabited α] (l : List α) (k : ℕ) (d : α)
    (h : k < l.length) : l.getD k d = l.get ⟨k, h⟩ := by
  rw [List.getD_eq_getElem?_getD, List.getElem?_eq_getElem h]
  rfl

theorem zip_pair_index (hole_ds : List ℚ) (assign : List ℤ)
    (hal : assign.length = hole_ds.length) (p : ℚ × ℤ)
    (hp : p ∈ hole_ds.zip assign) :
    ∃ k, k < hole_ds.length ∧ p.1 = hole_ds.getD k 0 ∧ p.2 = assign.getD k 0 := by
  rcases List.mem_iff_getElem.mp hp with ⟨k, hk, hpk⟩
  have hkl : k < hole_ds.length := by
    rw [List.length_zip, hal, Nat.min_self] at hk
    exact hk
  have hka : k < assign.length := by omega
  refine ⟨k, hkl, ?_, ?_⟩
  · rw [← hpk, List.getElem_zip, getD_of_lt _ _ _ hkl]; rfl
  · rw [← hpk, List.getElem_zip, getD_of_lt _ _ _ hka]; rfl

theorem two_le_exists_ne (used : List ℕ) (hnd : used.Nodup)
    (h2 : 2 ≤ used.length) (j : ℕ) : ∃ x ∈ used, x ≠ j := by
  match used, h2 with
  | a :: b :: t, _ =>
    have hab : a ≠ b := by
      intro h
      rw [List.nodup_cons] at hnd
      exact hnd.1 (h ▸ List.mem_cons_self _ _)
    by_cases ha : a = j
    · exact ⟨b, List.mem_cons_of_mem _ (List.mem_cons_self _ _), fun h => hab (ha.trans h.symm)⟩
    · exact ⟨a, List.mem_cons_self _ _, ha⟩

theorem max_used_droppable (ds : List ℚ) (tol : ℚ) (hole_ds : List ℚ)
    (assign : List ℤ) (used : List ℕ) (hs : ds.Sorted (· ≤ ·))
    (hinv : planInv ds tol hole_ds assign used) (h2 : 2 ≤ used.length) :
    used.foldl max 0 ∈ used ∧
    dropCheck ds tol hole_ds assign used (used.foldl max 0) = true := by
  obtain ⟨hal, hnd, hltlen, hass⟩ := hinv
  have hne : used ≠ [] := by
    intro h; rw [h] at h2; simp at h2
  have jmem : used.foldl max 0 ∈ used := by
    rcases foldl_max_mem used 0 with h | h
    · exact h
    · rcases List.exists_mem_of_ne_nil used hne with ⟨u, hu⟩
      have hu0 : u = 0 := by
        have := foldl_max_ge used 0 u hu
        omega
      rw [h, ← hu0]
      exact hu
  refine ⟨jmem, ?_⟩
  rw [dropCheck, List.all_eq_true]
  intro p hp
  by_cases hif : p.2 = ((used.foldl max 0 : ℕ) : ℤ)
  swap
  · rw [if_neg hif]
  rw [if_pos hif, decide_eq_true_eq]
  rcases zip_pair_index hole_ds assign hal p hp with ⟨k, hkl, hp1, hp2⟩
  rcases hass k hkl with ⟨i, hvi, hiu, hife⟩
  have hij : i = used.foldl max 0 := by
    have : (i : ℤ) = ((used.foldl max 0 : ℕ) : ℤ) := by rw [← hvi, ← hp2, hif]
    exact_mod_cast this
  rcases two_le_exists_ne used hnd h2 (used.foldl max 0) with ⟨i0, hi0u, hi0ne⟩
  have hi0f : i0 ∈ used.filter (fun j => j ≠ used.foldl max 0) := by
    rw [List.mem_filter]
    exact ⟨hi0u, by simpa using hi0ne⟩
  refine bdi_nonneg ds tol p.1 _ hs i0 hi0f (hltlen i0 hi0u) ?_
  have hle1 : ds.getD i0 0 ≤ ds.getD (used.foldl max 0) 0 :=
    sorted_getD_mono ds hs (foldl_max_ge used 0 i0 hi0u)
      (hltlen _ jmem)
  calc ds.getD i0 0 ≤ ds.getD (used.foldl max 0) 0 := hle1
    _ ≤ hole_ds.getD k 0 + tol + matchEps := hij ▸ hife
    _ = p.1 + tol + matchEps := by rw [hp1]

theorem droppableOf_ne_nil (ds : List ℚ) (tol : ℚ) (hole_ds : List ℚ)
    (assign : List ℤ) (used : List ℕ) (hs : ds.Sorted (· ≤ ·))
    (hinv : planInv ds tol hole_ds assign used) (h2 : 2 ≤ used.length) :
    droppableOf ds tol hole_ds assign used ≠ [] := by
  rcases max_used_droppable ds tol hole_ds assign used hs hinv h2 with ⟨jmem, jchk⟩
  intro h
  have : used.foldl max 0 ∈ droppableOf ds tol hole_ds assign used :=
    List.mem_filter.mpr ⟨jmem, jchk⟩
  rw [h] at this
  cases this

theorem dropOf_mem (ds : List ℚ) (tol : ℚ) (hole_ds : List ℚ)
    (assign : List ℤ) (used : List ℕ)
    (hne : droppableOf ds tol hole_ds assign used ≠ []) :
    dropOf ds tol hole_ds assign used ∈ droppableOf ds tol hole_ds assign used := by
  rw [dropOf]
  cases hd : droppableOf ds tol hole_ds assign used with
  | nil => exact absurd hd hne
  | cons a rest =>
    have hdrop1 : (a :: rest).drop 1 = rest := rfl
    have hheadD : (a :: rest).headD 0 = a := rfl
    rw [hdrop1, hheadD]
    rcases argminFirst_mem (fun i =>
        ((assign.filter (fun x => x = (i : ℤ))).length, ds.getD i 0))
        rest a with h | h
    · exact List.mem_cons_of_mem _ h
    · rw [h]
      exact List.mem_cons_self _ _

theorem erase_eq_filter_ne (l : List ℕ) (hnd : l.Nodup) (a : ℕ) :
    l.erase a = l.filter (fun j => j ≠ a) := by
  rw [hnd.erase_eq_filter a]
  exact List.filter_congr (fun x _ => by by_cases h : x = a <;> simp [h])

theorem planInv_step (ds : List ℚ) (tol : ℚ) (hole_ds : List ℚ)
    (assign : List ℤ) (used : List ℕ) (drop : ℕ)
    (hinv : planInv ds tol hole_ds assign used) (hdu : drop ∈ used)
    (hdc : dropCheck ds tol hole_ds assign used drop = true) :
    planInv ds tol hole_ds
      (reassignOf ds tol hole_ds assign (used.erase drop) drop)
      (used.erase drop) := by
  obtain ⟨hal, hnd, hltlen, hass⟩ := hinv
  refine ⟨?_, hnd.erase drop, ?_, ?_⟩
  · rw [reassignOf, List.length_map, List.length_zip, hal, Nat.min_self]
  · intro i hi
    exact hltlen i (List.mem_of_mem_erase hi)
  · intro k hkl
    have hka : k < assign.length := by omega
    have hzl : k < (hole_ds.zip assign).length := by
      rw [List.length_zip, hal, Nat.min_self]; exact hkl
    have hml : k < ((hole_ds.zip assign).map (fun p : ℚ × ℤ =>
        if p.2 = (drop : ℤ) then
          best_drill_index_for ds tol p.1 (some (used.erase drop))
        else p.2)).length := by
      rw [List.length_map]; exact hzl
    have hv : (reassignOf ds tol hole_ds assign (used.erase drop) drop).getD k 0
        = (if assign.getD k 0 = (drop : ℤ) then
            best_drill_index_for ds tol (hole_ds.getD k 0) (some (used.erase drop))
          else assign.getD k 0) := by
      rw [reassignOf, getD_of_lt _ _ _ hml, List.get_eq_getElem,
        List.getElem_map, List.getElem_zip,
        getD_of_lt _ _ _ hkl, getD_of_lt _ _ _ hka,
        List.get_eq_getElem, List.get_eq_getElem]
    rcases hass k hkl with ⟨i, hvi, hiu, hife⟩
    have hgk : assign.getD k 0 = assign[k] := by
      rw [getD_of_lt _ _ _ hka, List.get_eq_getElem]
    by_cases hidrop : (i : ℤ) = (drop : ℤ)
    · have h0 : 0 ≤ best_drill_index_for ds tol (hole_ds.getD k 0)
          (some (used.erase drop)) := by
        rw [dropCheck, List.all_eq_true] at hdc
        have hp : (hole_ds.zip assign)[k] ∈ hole_ds.zip assign :=
          List.getElem_mem hzl
        have := hdc _ hp
        rw [List.getElem_zip] at this
        have hpk2 : assign[k] = (drop : ℤ) := by
          rw [← hgk, hvi]; exact hidrop
        rw [if_pos hpk2, decide_eq_true_eq] at this
        rw [erase_eq_filter_ne used hnd drop]
        have hpk1 : hole_ds[k] = hole_ds.getD k 0 := by
          rw [getD_of_lt _ _ _ hkl, List.get_eq_getElem]
        rwa [hpk1] at this
      rcases bdi_some_spec ds tol (hole_ds.getD k 0) (some (used.erase drop)) h0
        with ⟨i', hval, hmem', _, hfe'⟩
      refine ⟨i', ?_, hmem', hfe'⟩
      rw [hv, if_pos (show assign.getD k 0 = (drop : ℤ) by rw [hvi]; exact hidrop)]
      exact hval
    · have hne : (i : ℕ) ≠ drop := fun h => hidrop (by exact_mod_cast h)
      refine ⟨i, ?_, (List.mem_erase_of_ne hne).mpr hiu, hife⟩
      rw [hv, if_neg (show ¬assign.getD k 0 = (drop : ℤ) by rw [hvi]; exact hidrop)]
      exact hvi

theorem planLoop_spec (ds : List ℚ) (tol : ℚ) (hole_ds : List ℚ)
    (max_bits : ℕ) (hs : ds.Sorted (· ≤ ·)) (hmax : 1 ≤ max_bits) :
    ∀ (fuel : ℕ) (assign : List ℤ) (used : List ℕ),
      used.length < fuel → planInv ds tol hole_ds assign used →
      ∃ planned, planLoop ds tol hole_ds max_bits fuel assign used = some planned ∧
        planned.length ≤ max_bits := by
  intro fuel
  induction fuel with
  | zero => intro assign used h _; omega
  | succ fuel ih =>
    intro assign used hflt hinv
    by_cases hle : used.length ≤ max_bits
    · refine ⟨List.insertionSort (fun a b : ℚ => b ≤ a)
        (used.map (fun i => ds.getD i 0)), ?_, ?_⟩
      · rw [planLoop, if_pos hle]
      · rw [List.length_insertionSort, List.length_map]; exact hle
    · have hgt : max_bits < used.length := not_le.mp hle
      have h2 : 2 ≤ used.length := by omega
      have hdne := droppableOf_ne_nil ds tol hole_ds assign used hs hinv h2
      have hdm := dropOf_mem ds tol hole_ds assign used hdne
      have hdm' := List.mem_filter.mp (by rwa [droppableOf] at hdm)
      have hinv' := planInv_step ds tol hole_ds assign used
        (dropOf ds tol hole_ds assign used) hinv hdm'.1 hdm'.2
      have hlen' : (used.erase (dropOf ds tol hole_ds assign used)).length < fuel := by
        rw [List.length_erase_of_mem hdm'.1]; omega
      rcases ih _ _ hlen' hinv' with ⟨planned, hpl, hpllen⟩
      refine ⟨planned, ?_, hpllen⟩
      rw [planLoop, if_neg hle, if_neg ?_]
      · exact hpl
      · simp only [List.isEmpty_iff]
        exact hdne

theorem bdi_none_neg (ds : List ℚ) (tol hd : ℚ) (hs : ds.Sorted (· ≤ ·))
    (h : best_drill_index_for ds tol hd none < 0) :
    ∀ d ∈ ds, hd + tol + matchEps < d := by
  cases ds with
  | nil => intro d hd'; cases hd'
  | cons d0 rest =>
    by_cases h0 : d0 ≤ hd + tol + matchEps
    · exfalso
      have : 0 ≤ best_drill_index_for (d0 :: rest) tol hd none := by
        rw [best_drill_index_for]
        simpa [bdiGo, h0] using bdiGo_nonneg_init (hd + tol) none rest 1 0 le_rfl
      omega
    · intro d hdm
      have hlt : hd + tol + matchEps < d0 := not_le.mp h0
      rcases List.mem_cons.mp hdm with rfl | hdm
      · exact hlt
      · exact lt_of_lt_of_le hlt ((List.sorted_cons.mp hs).1 d hdm)

theorem planInv_init (hole_ds : List ℚ) (ds : List ℚ) (tol : ℚ)
    (hguard : ∀ a ∈ hole_ds.map (fun hd => best_drill_index_for ds tol hd none),
      0 ≤ a) :
    planInv ds tol hole_ds
      (hole_ds.map (fun hd => best_drill_index_for ds tol hd none))
      (List.insertionSort (· ≤ ·)
        ((((hole_ds.map (fun hd => best_drill_index_for ds tol hd none)).filter
          (fun i => decide (0 ≤ i))).map Int.toNat).dedup)) := by
  refine ⟨List.length_map _ _, ?_, ?_, ?_⟩
  · exact (List.perm_insertionSort _ _).nodup_iff.mpr (List.nodup_dedup _)
  · intro i hi
    rw [List.mem_insertionSort, List.mem_dedup] at hi
    rcases List.mem_map.mp hi with ⟨a, haf, rfl⟩
    rcases List.mem_filter.mp haf with ⟨hamem, hapos⟩
    rcases List.mem_map.mp hamem with ⟨hd, _, rfl⟩
    have h0 : 0 ≤ best_drill_index_for ds tol hd none := of_decide_eq_true hapos
    rcases bdi_some_spec ds tol hd none h0 with ⟨i', hval, _, hlen, _⟩
    rw [hval]
    simpa using hlen
  · intro k hkl
    have hka : k < (hole_ds.map (fun hd => best_drill_index_for ds tol hd none)).length := by
      rw [List.length_map]; exact hkl
    have hv : (hole_ds.map (fun hd => best_drill_index_for ds tol hd none)).getD k 0
        = best_drill_index_for ds tol (hole_ds.getD k 0) none := by
      rw [getD_of_lt _ _ _ hka, List.get_eq_getElem, List.getElem_map,
        getD_of_lt _ _ _ hkl, List.get_eq_getElem]
    have hmemA : best_drill_index_for ds tol (hole_ds.getD k 0) none
        ∈ hole_ds.map (fun hd => best_drill_index_for ds tol hd none) := by
      rw [← hv, getD_of_lt _ _ _ hka, List.get_eq_getElem]
      exact List.getElem_mem hka
    have h0 : 0 ≤ best_drill_index_for ds tol (hole_ds.getD k 0) none :=
      hguard _ hmemA
    rcases bdi_some_spec ds tol (hole_ds.getD k 0) none h0
      with ⟨i, hval, _, _, hfe⟩
    refine ⟨i, by rw [hv, hval], ?_, hfe⟩
    rw [List.mem_insertionSort, List.mem_dedup]
    have hmf : best_drill_index_for ds tol (hole_ds.getD k 0) none
        ∈ (hole_ds.map (fun hd => best_drill_index_for ds tol hd none)).filter
          (fun i => decide (0 ≤ i)) :=
      List.mem_filter.mpr ⟨hmemA, decide_eq_true h0⟩
    have := List.mem_map_of_mem Int.toNat hmf
    rw [hval] at this
    simpa using this

/-- C5: drill planner impossibility is complete.  For every list of hole
diameters, candidate drill diameters, tolerance `tol` and cap
`max_bits ≥ 1`: if `_plan_drills_for_holes` reports impossibility (either
`"error"` return), then no sublist of the candidates of size at most
`max_bits` covers every hole — some hole has no drill in the sublist with
diameter ≤ hole + tol; and if it returns a plan, the plan uses at most
`max_bits` drills. -/
theorem C5_plan_impossibility (hole_ds candidate_bits : List ℚ) (tol : ℚ)
    (max_bits : ℕ) (hmax : 1 ≤ max_bits) :
    (plan_drills_for_holes hole_ds candidate_bits tol max_bits = none →
      ∀ S : List ℚ, S ⊆ candidate_bits → S.length ≤ max_bits →
        ∃ h ∈ hole_ds, ∀ d ∈ S, ¬(d ≤ h + tol)) ∧
    (∀ planned, plan_drills_for_holes hole_ds candidate_bits tol max_bits
        = some planned → planned.length ≤ max_bits) := by
  have hsorted : (List.insertionSort (· ≤ ·) candidate_bits).Sorted (· ≤ ·) :=
    List.sorted_insertionSort _ _
  constructor
  · intro hnone S hSsub _
    rw [plan_drills_for_holes] at hnone
    by_cases h1 : hole_ds.isEmpty = true
    · rw [if_pos h1] at hnone; cases hnone
    rw [if_neg h1] at hnone
    have hne : hole_ds ≠ [] := by
      intro h; rw [h] at h1; exact h1 rfl
    by_cases h2 : candidate_bits.isEmpty = true
    · rcases List.exists_mem_of_ne_nil hole_ds hne with ⟨h0, hh0⟩
      refine ⟨h0, hh0, ?_⟩
      intro d hdS _
      have hdc : d ∈ candidate_bits := hSsub hdS
      have h2' : candidate_bits = [] := by
        cases candidate_bits with
        | nil => rfl
        | cons a t => cases h2
      rw [h2'] at hdc
      cases hdc
    rw [if_neg h2] at hnone
    set ds0 := List.insertionSort (· ≤ ·) candidate_bits with hds0
    set assign0 := hole_ds.map (fun hd => best_drill_index_for ds0 tol hd none)
      with hassign0
    by_cases h3 : assign0.any (fun i => decide (i < 0)) = true
    · rcases List.any_eq_true.mp h3 with ⟨a, hamem, haneg⟩
      rw [hassign0] at hamem
      rcases List.mem_map.mp hamem with ⟨h0, hh0, rfl⟩
      have hneg : best_drill_index_for ds0 tol h0 none < 0 :=
        of_decide_eq_true haneg
      have hall := bdi_none_neg ds0 tol h0 hsorted hneg
      refine ⟨h0, hh0, ?_⟩
      intro d hdS hle
      have hdds : d ∈ ds0 := (List.mem_insertionSort _).mpr (hSsub hdS)
      have := hall d hdds
      have heps : (0 : ℚ) < matchEps := by norm_num [matchEps]
      linarith
    · rw [if_neg h3] at hnone
      have hguard : ∀ a ∈ assign0, 0 ≤ a := by
        intro a ha
        by_contra hc
        exact h3 (List.any_eq_true.mpr ⟨a, ha, decide_eq_true (by omega)⟩)
      obtain ⟨planned, hpl, _⟩ := planLoop_spec ds0 tol hole_ds max_bits hsorted
        hmax
        ((List.insertionSort (· ≤ ·)
          (((assign0.filter (fun i => decide (0 ≤ i))).map Int.toNat).dedup)).length + 1)
        assign0
        (List.insertionSort (· ≤ ·)
          (((assign0.filter (fun i => decide (0 ≤ i))).map Int.toNat).dedup))
        (by omega)
        (by rw [hassign0]; exact planInv_init hole_ds ds0 tol (hassign0 ▸ hguard))
      rw [hpl] at hnone
      cases hnone
  · intro planned hsome
    rw [plan_drills_for_holes] at hsome
    by_cases h1 : hole_ds.isEmpty = true
    · rw [if_pos h1] at hsome
      obtain rfl : ([] : List ℚ) = planned := Option.some.inj hsome
      simp
    rw [if_neg h1] at hsome
    by_cases h2 : candidate_bits.isEmpty = true
    · rw [if_pos h2] at hsome; cases hsome
    rw [if_neg h2] at hsome
    set ds0 := List.insertionSort (· ≤ ·) candidate_bits with hds0
    set assign0 := hole_ds.map (fun hd => best_drill_index_for ds0 tol hd none)
      with hassign0
    by_cases h3 : assign0.any (fun i => decide (i < 0)) = true
    · rw [if_pos h3] at hsome; cases hsome
    · rw [if_neg h3] at hsome
      have hguard : ∀ a ∈ assign0, 0 ≤ a := by
        intro a ha
        by_contra hc
        exact h3 (List.any_eq_true.mpr ⟨a, ha, decide_eq_true (by omega)⟩)
      obtain ⟨planned', hpl, hlen⟩ := planLoop_spec ds0 tol hole_ds max_bits
        hsorted hmax
        ((List.insertionSort (· ≤ ·)
          (((assign0.filter (fun i => decide (0 ≤ i))).map Int.toNat).dedup)).length + 1)
        assign0
        (List.insertionSort (· ≤ ·)
          (((assign0.filter (fun i => decide (0 ≤ i))).map Int.toNat).dedup))
        (by omega)
        (by rw [hassign0]; exact planInv_init hole_ds ds0 tol (hassign0 ▸ hguard))
      rw [hpl] at hsome
      obtain rfl : planned' = planned := Option.some.inj hsome
      exact hlen

/-- Witness for C5 at a concrete impossible input: a 0.3 mm hole with
candidate drills 0.5 and 0.6 mm, tol 0.05, max_bits 2 — the planner
errors, and indeed the sublist [0.5] covers no hole. -/
theorem C5_plan_impossibility_witness :
    (1 ≤ 2) ∧ ∃ h ∈ [(3/10 : ℚ)], ∀ d ∈ [(1/2 : ℚ)], ¬(d ≤ h + 1/20) := by
  refine ⟨by norm_num, ?_⟩
  have hplan : plan_drills_for_holes [(3/10 : ℚ)] [1/2, 3/5] (1/20) 2 = none := by
    norm_num [plan_drills_for_holes, best_drill_index_for, bdiGo, matchEps,
      List.insertionSort, List.orderedInsert]
  exact (C5_plan_impossibility [(3/10 : ℚ)] [1/2, 3/5] (1/20) 2 (by norm_num)).1
    hplan [1/2] (by simp) (by norm_num)
